import Mathlib

/-!
Verification of the comparison engine of `userinput_dbcheck.py`.

The core under verification is `compare_rds_fields(db1_details, db2_details,
fields_to_compare)`: a pure function that compares selected fields of two
configuration records and produces a report
`{status, message, differences : field ↦ {db1, db2, diff}}`.

The Python values that can occur in a configuration record (JSON-like data:
`None`, booleans, integers, strings, lists, string-keyed dictionaries) are
embedded as the inductive type `PyVal`.  Python operations used by the code
are embedded one by one:

* `pyEq` — Python `==` (`True == 1`, numeric equality across bool/int,
  elementwise on lists, key/value-wise on dicts);
* `pyLt` — Python `<`, a partial operation: `Option.none` models a raised
  `TypeError` (e.g. `1 < "a"`, any comparison involving `None` or a dict);
* `pySorted` — Python `sorted`, modelled as a stable insertion sort driven
  by `pyLt`; it fails (models an escaping `TypeError`) when it reaches a
  pair of elements that `pyLt` cannot compare;
* `jsonDumps` — `json.dumps(·, sort_keys=True)` restricted to the value
  domain above (string escaping covers backslash and double quote, which is
  exact on the ASCII data appearing in this development);
* `pyStr`/`pyRepr` — Python `str()`/`repr()` on the same domain;
* `pyTruthy` — Python truthiness.

Fallible Python code (expressions that can raise) is embedded in `Option`:
`Option.none` is an exception escaping `compare_rds_fields`.
-/

/-- A Python value as it can occur in an RDS configuration record:
`None`, `bool`, `int`, `str`, `list`, or a string-keyed `dict`
(dictionaries are association lists; Python guarantees unique keys). -/
inductive PyVal where
  | none
  | bool (b : Bool)
  | int (n : Int)
  | str (s : String)
  | list (xs : List PyVal)
  | dict (kvs : List (String × PyVal))

/-- Lexicographic order on character lists by code point, as a Boolean.
This is Python's `<` on strings (which compares code points). -/
def charListLt : List Char → List Char → Bool
  | [], [] => false
  | [], _ :: _ => true
  | _ :: _, [] => false
  | c :: cs, d :: ds =>
    if c.toNat < d.toNat then true
    else if d.toNat < c.toNat then false
    else charListLt cs ds

/-- Python's `<` on strings: lexicographic by code point. -/
def strLt (a b : String) : Bool := charListLt a.data b.data

/-- `dict.get(key)` on an association list: first binding wins
(Python dictionaries have unique keys, so this is exact). -/
def lookupKey {α : Type} (k : String) : List (String × α) → Option α
  | [] => Option.none
  | (k2, v) :: rest => if k = k2 then some v else lookupKey k rest

/-- Python truthiness of a value (`bool(v)`). -/
def pyTruthy : PyVal → Bool
  | .none => false
  | .bool b => b
  | .int n => !decide (n = 0)
  | .str s => !decide (s = "")
  | .list xs => !xs.isEmpty
  | .dict kvs => !kvs.isEmpty

/-- Insert one pair into a list of pairs, keeping it sorted ascending by
`strLt` on the first components. -/
def pairInsert (p : String × String) : List (String × String) → List (String × String)
  | [] => [p]
  | q :: qs => if strLt p.1 q.1 then p :: q :: qs else q :: pairInsert p qs

/-- Sort a list of pairs ascending by first component (insertion sort).
Models the `sort_keys=True` key ordering of `json.dumps`. -/
def pairSort : List (String × String) → List (String × String)
  | [] => []
  | p :: ps => pairInsert p (pairSort ps)

/-- Join strings with `", "`, as Python's default JSON item separator and
`repr` of containers do. -/
def joinComma : List String → String
  | [] => ""
  | [s] => s
  | s :: t :: rest => s ++ ", " ++ joinComma (t :: rest)

/-- The single quote character, used by `pyRepr` for string literals. -/
def sQuote : String := String.singleton (Char.ofNat 39)

/-- JSON string escaping for one character (backslash and double quote;
exact on the ASCII data used here). -/
def jsonEscapeChar (c : Char) : String :=
  if c = Char.ofNat 92 then String.singleton (Char.ofNat 92) ++ String.singleton (Char.ofNat 92)
  else if c = Char.ofNat 34 then String.singleton (Char.ofNat 92) ++ String.singleton (Char.ofNat 34)
  else String.singleton c

/-- JSON string escaping. -/
def jsonEscape (s : String) : String := String.join (s.data.map jsonEscapeChar)

mutual

/-- `json.dumps(v, sort_keys=True)` on the embedded value domain
(default separators `", "` and `": "`).  Each dict entry is serialized and
the serialized entries are then joined in ascending key order, which is
exactly the key-sorted serialization `sort_keys=True` produces. -/
def jsonDumps : PyVal → String
  | .none => "null"
  | .bool true => "true"
  | .bool false => "false"
  | .int n => toString n
  | .str s => "\"" ++ jsonEscape s ++ "\""
  | .list xs => "[" ++ joinComma (jsonDumpsList xs) ++ "]"
  | .dict kvs =>
    "\x7b" ++
      joinComma ((pairSort (jsonDumpsKvs kvs)).map
        (fun p => "\"" ++ jsonEscape p.1 ++ "\": " ++ p.2)) ++ "\x7d"

/-- Serializations of the elements of a list. -/
def jsonDumpsList : List PyVal → List String
  | [] => []
  | x :: rest => jsonDumps x :: jsonDumpsList rest

/-- Key together with serialization of the value, for each dict entry. -/
def jsonDumpsKvs : List (String × PyVal) → List (String × String)
  | [] => []
  | (k, v) :: rest => (k, jsonDumps v) :: jsonDumpsKvs rest

end

mutual

/-- Python `repr()` on the embedded value domain (string literals are
rendered with single quotes and no inner escaping, which is exact on the
data used here). -/
def pyRepr : PyVal → String
  | .none => "None"
  | .bool true => "True"
  | .bool false => "False"
  | .int n => toString n
  | .str s => sQuote ++ s ++ sQuote
  | .list xs => "[" ++ joinComma (pyReprList xs) ++ "]"
  | .dict kvs => "\x7b" ++ joinComma (pyReprKvs kvs) ++ "\x7d"

/-- `repr` of each element of a list. -/
def pyReprList : List PyVal → List String
  | [] => []
  | x :: rest => pyRepr x :: pyReprList rest

/-- `repr` of each dict entry (insertion order, as in Python). -/
def pyReprKvs : List (String × PyVal) → List String
  | [] => []
  | (k, v) :: rest => (sQuote ++ k ++ sQuote ++ ": " ++ pyRepr v) :: pyReprKvs rest

end

/-- Python `str()`: identity on strings, `repr`-like rendering otherwise. -/
def pyStr : PyVal → String
  | .str s => s
  | .none => "None"
  | .bool true => "True"
  | .bool false => "False"
  | .int n => toString n
  | .list xs => "[" ++ joinComma (pyReprList xs) ++ "]"
  | .dict kvs => "\x7b" ++ joinComma (pyReprKvs kvs) ++ "\x7d"

mutual

/-- Python `==` on the embedded value domain: `None == None`; booleans and
integers compared numerically (`True == 1`); strings by content; lists
elementwise; dicts by equal size together with every entry of the first
dict matching the second per key (for the unique-key dictionaries Python
produces this is exactly Python's dict equality: equal key sets and equal
values key by key).  Values of any other pair of kinds are unequal. -/
def pyEq : PyVal → PyVal → Bool
  | .none, .none => true
  | .bool a, .bool b => decide (a = b)
  | .bool a, .int n => decide ((if a then (1 : Int) else 0) = n)
  | .int m, .bool b => decide (m = (if b then (1 : Int) else 0))
  | .int m, .int n => decide (m = n)
  | .str a, .str b => decide (a = b)
  | .list xs, .list ys => pyListEq xs ys
  | .dict a, .dict b => decide (a.length = b.length) && pyDictSub a b
  | _, _ => false

/-- Elementwise Python `==` on lists. -/
def pyListEq : List PyVal → List PyVal → Bool
  | [], [] => true
  | x :: xs, y :: ys => pyEq x y && pyListEq xs ys
  | _, _ => false

/-- Every entry of the first association list matches a binding of the
second up to `pyEq` of the values. -/
def pyDictSub : List (String × PyVal) → List (String × PyVal) → Bool
  | [], _ => true
  | (k, v) :: rest, b =>
    (match lookupKey k b with
     | some w => pyEq v w
     | Option.none => false) && pyDictSub rest b

end

mutual

/-- Python `<` on the embedded value domain, `Option.none` modelling a
raised `TypeError`: booleans/integers compare numerically, strings by code
point, lists lexicographically (Python first tests `==` on the heads and
only calls `<` on the first unequal pair); `None`, dicts, and any
cross-kind pair other than bool/int do not support `<`. -/
def pyLt : PyVal → PyVal → Option Bool
  | .bool a, .bool b => some (decide ((if a then (1 : Int) else 0) < (if b then 1 else 0)))
  | .bool a, .int n => some (decide ((if a then (1 : Int) else 0) < n))
  | .int m, .bool b => some (decide (m < (if b then (1 : Int) else 0)))
  | .int m, .int n => some (decide (m < n))
  | .str a, .str b => some (strLt a b)
  | .list xs, .list ys => pyListLt xs ys
  | _, _ => Option.none

/-- Python `<` on lists: skip equal heads, decide at the first unequal
pair, a strict prefix is smaller. -/
def pyListLt : List PyVal → List PyVal → Option Bool
  | [], [] => some false
  | [], _ :: _ => some true
  | _ :: _, [] => some false
  | x :: xs, y :: ys => if pyEq x y then pyListLt xs ys else pyLt x y

end

/-- Insert `x` into the list `s` before the first element `y` with
`x < y` (so after every element it ties with: the stable position).
`Option.none` models a `TypeError` raised by a needed comparison. -/
def insertSorted (x : PyVal) : List PyVal → Option (List PyVal)
  | [] => some [x]
  | y :: ys =>
    match pyLt x y with
    | Option.none => Option.none
    | some true => some (x :: y :: ys)
    | some false =>
      match insertSorted x ys with
      | Option.none => Option.none
      | some zs => some (y :: zs)

/-- Left-to-right insertion pass over the input, `acc` holding the sorted
prefix. -/
def pySortedFrom (acc : List PyVal) : List PyVal → Option (List PyVal)
  | [] => some acc
  | x :: xs =>
    match insertSorted x acc with
    | Option.none => Option.none
    | some acc2 => pySortedFrom acc2 xs

/-- Python `sorted(l)`: a stable comparison sort driven by `pyLt`,
modelled as insertion sort; `Option.none` models an escaping `TypeError`
when two elements that the sort must compare are not comparable. -/
def pySorted (l : List PyVal) : Option (List PyVal) := pySortedFrom [] l

/-- The list comprehension
`[sg.get('VpcSecurityGroupId') for sg in value if sg.get('VpcSecurityGroupId')]`:
keeps the truthy identifiers of the dict elements; a non-dict element makes
it raise `AttributeError` (`Option.none`). -/
def sgIds : List PyVal → Option (List PyVal)
  | [] => some []
  | .dict kvs :: rest =>
    let idv := (lookupKey "VpcSecurityGroupId" kvs).getD .none
    match sgIds rest with
    | Option.none => Option.none
    | some tl => some (if pyTruthy idv then idv :: tl else tl)
  | _ :: _ => Option.none

/-- One entry of the `differences` mapping: the recorded value for each
side and the `diff` flag. -/
structure FieldDiff where
  db1 : PyVal
  db2 : PyVal
  diff : Bool

/-- The report returned by `compare_rds_fields`: overall `status`,
human-readable `message`, and the `differences` mapping in insertion
order. -/
structure ComparisonResult where
  status : String
  message : String
  differences : List (String × FieldDiff)

/-- A configuration record: a Python dict from field name to value,
kept in insertion order. -/
abbrev Record := List (String × PyVal)

/-- The body of the per-field loop of `compare_rds_fields` for one field:
look both values up (missing field ↦ `None`), then
* both lists and the field is `VpcSecurityGroups`: extract the truthy
  identifiers, sort each side, record the sorted identifier lists and
  compare them;
* both lists otherwise: compare `sorted(value1)` with `sorted(value2)` but
  record the raw lists;
* both dicts: compare the `sort_keys=True` JSON serializations, record the
  raw dicts;
* otherwise: Python `==`/`!=` on the raw values, record `str()` of each.
`Option.none` models an exception escaping the loop body. -/
def compareField (db1Details db2Details : Record) (field : String) : Option FieldDiff :=
  let value1 := (lookupKey field db1Details).getD .none
  let value2 := (lookupKey field db2Details).getD .none
  match value1, value2 with
  | .list l1, .list l2 =>
    if field = "VpcSecurityGroups" then
      match sgIds l1 with
      | Option.none => Option.none
      | some raw1 =>
        match pySorted raw1 with
        | Option.none => Option.none
        | some ids1 =>
          match sgIds l2 with
          | Option.none => Option.none
          | some raw2 =>
            match pySorted raw2 with
            | Option.none => Option.none
            | some ids2 => some ⟨.list ids1, .list ids2, !pyListEq ids1 ids2⟩
    else
      match pySorted l1 with
      | Option.none => Option.none
      | some s1 =>
        match pySorted l2 with
        | Option.none => Option.none
        | some s2 => some ⟨.list l1, .list l2, !pyListEq s1 s2⟩
  | .dict d1, .dict d2 =>
    some ⟨.dict d1, .dict d2, !decide (jsonDumps (.dict d1) = jsonDumps (.dict d2))⟩
  | v1, v2 => some ⟨.str (pyStr v1), .str (pyStr v2), !pyEq v1 v2⟩

/-- Python dict assignment `differences[field] = fd`: replace the value in
place if the key exists, else append at the end (insertion order). -/
def updateEntry : List (String × FieldDiff) → String → FieldDiff → List (String × FieldDiff)
  | [], f, fd => [(f, fd)]
  | (k, v) :: rest, f, fd =>
    if k = f then (f, fd) :: rest else (k, v) :: updateEntry rest f fd

/-- The `for field in fields_to_compare` loop of `compare_rds_fields`,
threading the `found_differences` flag and the `differences` mapping. -/
def compareLoop (r1 r2 : Record) :
    List String → Bool → List (String × FieldDiff) → Option (Bool × List (String × FieldDiff))
  | [], found, diffs => some (found, diffs)
  | f :: fs, found, diffs =>
    match compareField r1 r2 f with
    | Option.none => Option.none
    | some fd => compareLoop r1 r2 fs (found || fd.diff) (updateEntry diffs f fd)

/-- The report returned on the `if not db1_details or not db2_details`
path. -/
def missingResult : ComparisonResult :=
  ⟨"ERROR", "One or both DB instance details are missing for comparison.", []⟩

/-- `compare_rds_fields(db1_details, db2_details, fields_to_compare)`.
A record parameter is `Option.none` when the caller passed `None`; the
Python truthiness test `not db1_details or not db2_details` is also
triggered by a present but empty dict.  The result is `Option.none` when
an exception (a `TypeError` from `sorted` or an `AttributeError` from the
identifier extraction) escapes the function. -/
def compare_rds_fields (db1Details db2Details : Option Record) (fieldsToCompare : List String) :
    Option ComparisonResult :=
  match db1Details, db2Details with
  | some r1, some r2 =>
    if r1.isEmpty || r2.isEmpty then some missingResult
    else
      match compareLoop r1 r2 fieldsToCompare false [] with
      | Option.none => Option.none
      | some (foundDifferences, diffs) =>
        if foundDifferences then
          some ⟨"DIFFERENCES_FOUND", "Differences found for one or more specified fields.", diffs⟩
        else
          some ⟨"SUCCESS", "No differences found for specified fields.", diffs⟩
  | _, _ => some missingResult

/-- `True` iff the record argument passes the Python truthiness test of
`compare_rds_fields` (a present, non-empty dict). -/
def detailsUsable : Option Record → Bool
  | Option.none => false
  | some r => !r.isEmpty

/-- The Python type (kind) of a value, as its type name. -/
def pyKind : PyVal → String
  | .none => "NoneType"
  | .bool _ => "bool"
  | .int _ => "int"
  | .str _ => "str"
  | .list _ => "list"
  | .dict _ => "dict"

/-- Whether a value is a Python `list`. -/
def isList : PyVal → Bool
  | .list _ => true
  | _ => false

/-- Whether a value is a Python `dict`. -/
def isDict : PyVal → Bool
  | .dict _ => true
  | _ => false

/-- Whether a value is of a numeric kind (`bool` or `int`; Python compares
these two kinds numerically). -/
def isNumKind : PyVal → Bool
  | .bool _ => true
  | .int _ => true
  | _ => false

/-- First-occurrence deduplication relative to the names in `seen`. -/
def firstDedupAux (seen : List String) : List String → List String
  | [] => []
  | f :: fs =>
    if seen.contains f then firstDedupAux seen fs
    else f :: firstDedupAux (f :: seen) fs

/-- The distinct names of a list, in order of first occurrence.  This is
the key sequence a Python dict ends up with after assigning each name in
turn. -/
def firstDedup (l : List String) : List String := firstDedupAux [] l

/-- All elements of a list are mutually comparable under Python `<`
(every ordered pair, including an element with itself, has a defined
comparison).  This is the hypothesis under which Python `sorted` cannot
raise on the list. -/
def MutComp (l : List PyVal) : Prop :=
  ∀ a ∈ l, ∀ b ∈ l, (pyLt a b).isSome

/-- The keys of an association list are pairwise distinct.  Python
dictionaries always satisfy this. -/
def keysNodup : List (String × PyVal) → Bool
  | [] => true
  | (k, _) :: rest => !((rest.map Prod.fst).contains k) && keysNodup rest

mutual

/-- A value is well formed when every dictionary occurring in it has
pairwise distinct keys.  Every value Python can actually build is well
formed; the predicate only excludes association lists that do not
correspond to any Python dict. -/
def pyWF : PyVal → Bool
  | .none => true
  | .bool _ => true
  | .int _ => true
  | .str _ => true
  | .list xs => pyWFList xs
  | .dict kvs => keysNodup kvs && pyWFKvs kvs

/-- All elements well formed. -/
def pyWFList : List PyVal → Bool
  | [] => true
  | x :: xs => pyWF x && pyWFList xs

/-- All values of an association list well formed. -/
def pyWFKvs : List (String × PyVal) → Bool
  | [] => true
  | (_, v) :: rest => pyWF v && pyWFKvs rest

end

/-- Two lists are equivalent when they are Python-equal in both
directions (Python `==` on dictionaries is not symmetric on the
ill-formed duplicate-key association lists the model admits, so both
directions are carried). -/
def pyListEquiv (s1 s2 : List PyVal) : Prop :=
  pyListEq s1 s2 = true ∧ pyListEq s2 s1 = true

theorem updateEntry_mem {l : List (String × FieldDiff)} {f : String} {fd : FieldDiff}
    {e : String × FieldDiff} (h : e ∈ updateEntry l f fd) : e ∈ l ∨ e = (f, fd) := by
  induction l with
  | nil =>
    simp only [updateEntry, List.mem_singleton] at h
    exact Or.inr h
  | cons p rest ih =>
    obtain ⟨k, v⟩ := p
    simp only [updateEntry] at h
    split at h
    · rcases List.mem_cons.mp h with h1 | h1
      · exact Or.inr h1
      · exact Or.inl (List.mem_cons_of_mem _ h1)
    · rcases List.mem_cons.mp h with h1 | h1
      · exact Or.inl (h1 ▸ List.mem_cons_self _ _)
      · rcases ih h1 with h2 | h2
        · exact Or.inl (List.mem_cons_of_mem _ h2)
        · exact Or.inr h2

theorem updateEntry_any {l : List (String × FieldDiff)} {f : String} {fd : FieldDiff}
    (h : ∀ e ∈ l, e.1 = f → e.2 = fd) :
    ((updateEntry l f fd).any fun e => e.2.diff) = ((l.any fun e => e.2.diff) || fd.diff) := by
  induction l with
  | nil => simp [updateEntry]
  | cons p rest ih =>
    obtain ⟨k, v⟩ := p
    simp only [updateEntry]
    split
    · rename_i heq
      have hp : v = fd := h (k, v) (List.mem_cons_self _ _) heq
      subst hp
      simp only [List.any_cons]
      cases v.diff <;> simp
    · have hrest : ∀ e ∈ rest, e.1 = f → e.2 = fd :=
        fun e he => h e (List.mem_cons_of_mem _ he)
      simp only [List.any_cons, ih hrest]
      cases v.diff <;> cases fd.diff <;> simp

theorem compareLoop_sound (r1 r2 : Record) :
    ∀ (fs : List String) (found : Bool) (diffs : List (String × FieldDiff))
      (out : Bool × List (String × FieldDiff)),
      compareLoop r1 r2 fs found diffs = some out →
      found = (diffs.any fun e => e.2.diff) →
      (∀ e ∈ diffs, compareField r1 r2 e.1 = some e.2) →
      out.1 = (out.2.any fun e => e.2.diff) ∧
        (∀ e ∈ out.2, compareField r1 r2 e.1 = some e.2)
  | [], found, diffs, out, h, hf, hc => by
    simp only [compareLoop, Option.some_inj] at h
    rw [← h]
    exact ⟨hf, hc⟩
  | f :: fs, found, diffs, out, h, hf, hc => by
    simp only [compareLoop] at h
    cases hcf : compareField r1 r2 f with
    | none => rw [hcf] at h; exact absurd h (by simp)
    | some fd =>
      rw [hcf] at h
      have hcons : ∀ e ∈ updateEntry diffs f fd, compareField r1 r2 e.1 = some e.2 := by
        intro e he
        rcases updateEntry_mem he with h1 | h1
        · exact hc e h1
        · rw [h1]; exact hcf
      have hsame : ∀ e ∈ diffs, e.1 = f → e.2 = fd := by
        intro e he hef
        have h2 := hc e he
        rw [hef, hcf] at h2
        exact (Option.some_inj.mp h2).symm
      have hfound : (found || fd.diff) = ((updateEntry diffs f fd).any fun e => e.2.diff) := by
        rw [hf, updateEntry_any hsame]
      exact compareLoop_sound r1 r2 fs _ _ out h hfound hcons

/-- C4 (amended): if either input record is absent, `compare_rds_fields`
returns immediately a report with status `ERROR`, an empty differences
mapping, and the fixed message that one or both records are missing (the
message does not say which side). -/
theorem compare_absent_yields_error (db1 db2 : Option Record) (fs : List String)
    (h : db1 = Option.none ∨ db2 = Option.none) :
    compare_rds_fields db1 db2 fs =
      some ⟨"ERROR", "One or both DB instance details are missing for comparison.", []⟩ := by
  rcases h with h | h
  · subst h; cases db2 <;> rfl
  · subst h; cases db1 <;> rfl

theorem compare_absent_yields_error_witness :
    compare_rds_fields Option.none (some [("DBInstanceClass", PyVal.str "db.t3.micro")]) ["DBInstanceClass"] =
      some ⟨"ERROR", "One or both DB instance details are missing for comparison.", []⟩ :=
  compare_absent_yields_error Option.none (some [("DBInstanceClass", PyVal.str "db.t3.micro")])
    ["DBInstanceClass"] (Or.inl rfl)

/-- C4 counterexample to the claim as stated: the reports for "first record
missing" and for "second record missing" are identical, both carrying the
same fixed message, so the message cannot indicate which side is missing. -/
theorem compare_absent_message_not_side_specific :
    compare_rds_fields Option.none (some [("a", PyVal.int 1)]) ["a"] =
      compare_rds_fields (some [("a", PyVal.int 1)]) Option.none ["a"]
    ∧ (compare_rds_fields Option.none (some [("a", PyVal.int 1)]) ["a"]).map
        ComparisonResult.message =
      some "One or both DB instance details are missing for comparison." :=
  ⟨rfl, rfl⟩

/-- C9: a present but empty record is treated exactly like an absent one:
`compare_rds_fields` returns the same error report (status `ERROR`, empty
differences) without performing any field comparison, for every field list
and every other argument. -/
theorem compare_empty_record_like_absent (dbo : Option Record) (fs : List String) :
    compare_rds_fields (some []) dbo fs = compare_rds_fields Option.none dbo fs
    ∧ compare_rds_fields dbo (some []) fs = compare_rds_fields dbo Option.none fs
    ∧ compare_rds_fields (some []) dbo fs = some missingResult
    ∧ missingResult.status = "ERROR" ∧ missingResult.differences = [] := by
  refine ⟨?_, ?_, ?_, rfl, rfl⟩
  · cases dbo <;> rfl
  · cases dbo with
    | none => rfl
    | some r => cases r <;> rfl
  · cases dbo <;> rfl

theorem compare_status_cases (db1 db2 : Option Record) (fs : List String)
    (r : ComparisonResult) (h : compare_rds_fields db1 db2 fs = some r) :
    (r = missingResult ∧ (detailsUsable db1 && detailsUsable db2) = false)
    ∨ ((detailsUsable db1 && detailsUsable db2) = true
        ∧ (r.status = if (r.differences.any fun e => e.2.diff) then "DIFFERENCES_FOUND" else "SUCCESS")
        ∧ (∀ e ∈ r.differences, ∃ fd, compareField (db1.getD []) (db2.getD []) e.1 = some fd ∧ e.2 = fd)) := by
  cases db1 with
  | none =>
    left
    exact ⟨(Option.some_inj.mp h).symm, rfl⟩
  | some r1 =>
    cases db2 with
    | none =>
      left
      refine ⟨(Option.some_inj.mp h).symm, ?_⟩
      simp [detailsUsable]
    | some r2 =>
      simp only [compare_rds_fields] at h
      by_cases hemp : (r1.isEmpty || r2.isEmpty) = true
      · rw [if_pos hemp] at h
        left
        refine ⟨(Option.some_inj.mp h).symm, ?_⟩
        simp only [detailsUsable]
        rcases Bool.or_eq_true_iff.mp hemp with h1 | h1 <;> simp [h1]
      · rw [if_neg hemp] at h
        right
        have hemp2 : r1.isEmpty = false ∧ r2.isEmpty = false := by
          constructor <;> (cases h1 : r1.isEmpty <;> cases h2 : r2.isEmpty <;>
            simp_all)
        refine ⟨by simp [detailsUsable, hemp2.1, hemp2.2], ?_⟩
        cases hloop : compareLoop r1 r2 fs false [] with
        | none => rw [hloop] at h; exact absurd h (by simp)
        | some out =>
          rw [hloop] at h
          obtain ⟨found, diffs⟩ := out
          have hsound := compareLoop_sound r1 r2 fs false [] (found, diffs) hloop (by simp) (by simp)
          have hdiffs : r.differences = diffs := by
            cases found <;> simp only [if_pos, if_neg, Bool.false_eq_true,
              not_false_iff] at h <;> rw [← Option.some_inj.mp h]
          have hstatus : r.status = if found then "DIFFERENCES_FOUND" else "SUCCESS" := by
            cases found <;> simp only [if_pos, if_neg, Bool.false_eq_true,
              not_false_iff] at h <;> rw [← Option.some_inj.mp h] <;> rfl
          constructor
          · rw [hstatus, hdiffs, ← hsound.1]
          · intro e he
            rw [hdiffs] at he
            exact ⟨e.2, hsound.2 e he, rfl⟩

/-- C5: every report `compare_rds_fields` produces satisfies the status
invariant: status `ERROR` iff an input record is missing or unusable
(fails the truthiness test), and in that case the differences mapping is
empty; status `DIFFERENCES_FOUND` iff no input error occurred and at least
one recorded FieldDifference has `diff = true`; otherwise the status is
`SUCCESS` and every recorded FieldDifference has `diff = false`.
(`SUCCESS`/`DIFFERENCES_FOUND`/`ERROR` are the code's spellings of the
spec's `ok`/`differences_found`/`error`.) -/
theorem compare_status_invariant (db1 db2 : Option Record) (fs : List String)
    (r : ComparisonResult) (h : compare_rds_fields db1 db2 fs = some r) :
    (r.status = "ERROR" ↔ (detailsUsable db1 && detailsUsable db2) = false)
    ∧ (r.status = "ERROR" → r.differences = [])
    ∧ (r.status = "DIFFERENCES_FOUND" ↔
        (detailsUsable db1 && detailsUsable db2) = true ∧ ∃ e ∈ r.differences, e.2.diff = true)
    ∧ (r.status = "SUCCESS" → ∀ e ∈ r.differences, e.2.diff = false)
    ∧ (r.status = "SUCCESS" ∨ r.status = "DIFFERENCES_FOUND" ∨ r.status = "ERROR") := by
  rcases compare_status_cases db1 db2 fs r h with ⟨hr, hu⟩ | ⟨hu, hst, _⟩
  · subst hr
    have hst : missingResult.status = "ERROR" := rfl
    have hdf : missingResult.differences = [] := rfl
    refine ⟨⟨fun _ => hu, fun _ => hst⟩, fun _ => hdf, ?_, ?_, Or.inr (Or.inr hst)⟩
    · rw [hst]
      constructor
      · intro hs; exact absurd hs (by decide)
      · rintro ⟨htrue, _⟩
        rw [hu] at htrue
        exact absurd htrue (by decide)
    · rw [hst]
      intro hs; exact absurd hs (by decide)
  · cases hany : (r.differences.any fun e => e.2.diff) with
    | true =>
      rw [hany, if_pos rfl] at hst
      refine ⟨?_, ?_, ?_, ?_, Or.inr (Or.inl hst)⟩
      · rw [hst]
        constructor
        · intro hs; exact absurd hs (by decide)
        · intro hfalse; rw [hu] at hfalse; exact absurd hfalse (by decide)
      · rw [hst]; intro hs; exact absurd hs (by decide)
      · rw [hst]
        constructor
        · intro _
          rcases List.any_eq_true.mp hany with ⟨e, he, hd⟩
          exact ⟨hu, e, he, hd⟩
        · intro _; rfl
      · rw [hst]; intro hs; exact absurd hs (by decide)
    | false =>
      rw [hany] at hst
      simp only [if_neg (by decide : ¬ (false = true))] at hst
      refine ⟨?_, ?_, ?_, ?_, Or.inl hst⟩
      · rw [hst]
        constructor
        · intro hs; exact absurd hs (by decide)
        · intro hfalse; rw [hu] at hfalse; exact absurd hfalse (by decide)
      · rw [hst]; intro hs; exact absurd hs (by decide)
      · rw [hst]
        constructor
        · intro hs; exact absurd hs (by decide)
        · rintro ⟨_, e, he, hd⟩
          have hne := List.any_eq_false.mp hany e he
          rw [hd] at hne
          exact absurd rfl hne
      · intro _ e he
        have hne := List.any_eq_false.mp hany e he
        simpa using hne

theorem compare_status_invariant_witness :
    ((ComparisonResult.mk "DIFFERENCES_FOUND" "Differences found for one or more specified fields."
        [("DBInstanceClass", ⟨.str "db.t3.micro", .str "db.t3.small", true⟩)]).status = "ERROR" ↔
      (detailsUsable (some [("DBInstanceClass", PyVal.str "db.t3.micro")]) &&
        detailsUsable (some [("DBInstanceClass", PyVal.str "db.t3.small")])) = false)
    ∧ ((ComparisonResult.mk "DIFFERENCES_FOUND" "Differences found for one or more specified fields."
        [("DBInstanceClass", ⟨.str "db.t3.micro", .str "db.t3.small", true⟩)]).status = "ERROR" →
      (ComparisonResult.mk "DIFFERENCES_FOUND" "Differences found for one or more specified fields."
        [("DBInstanceClass", ⟨.str "db.t3.micro", .str "db.t3.small", true⟩)]).differences = [])
    ∧ ((ComparisonResult.mk "DIFFERENCES_FOUND" "Differences found for one or more specified fields."
        [("DBInstanceClass", ⟨.str "db.t3.micro", .str "db.t3.small", true⟩)]).status = "DIFFERENCES_FOUND" ↔
      (detailsUsable (some [("DBInstanceClass", PyVal.str "db.t3.micro")]) &&
        detailsUsable (some [("DBInstanceClass", PyVal.str "db.t3.small")])) = true
      ∧ ∃ e ∈ (ComparisonResult.mk "DIFFERENCES_FOUND" "Differences found for one or more specified fields."
          [("DBInstanceClass", ⟨.str "db.t3.micro", .str "db.t3.small", true⟩)]).differences, e.2.diff = true)
    ∧ ((ComparisonResult.mk "DIFFERENCES_FOUND" "Differences found for one or more specified fields."
        [("DBInstanceClass", ⟨.str "db.t3.micro", .str "db.t3.small", true⟩)]).status = "SUCCESS" →
      ∀ e ∈ (ComparisonResult.mk "DIFFERENCES_FOUND" "Differences found for one or more specified fields."
        [("DBInstanceClass", ⟨.str "db.t3.micro", .str "db.t3.small", true⟩)]).differences, e.2.diff = false)
    ∧ ((ComparisonResult.mk "DIFFERENCES_FOUND" "Differences found for one or more specified fields."
        [("DBInstanceClass", ⟨.str "db.t3.micro", .str "db.t3.small", true⟩)]).status = "SUCCESS"
      ∨ (ComparisonResult.mk "DIFFERENCES_FOUND" "Differences found for one or more specified fields."
        [("DBInstanceClass", ⟨.str "db.t3.micro", .str "db.t3.small", true⟩)]).status = "DIFFERENCES_FOUND"
      ∨ (ComparisonResult.mk "DIFFERENCES_FOUND" "Differences found for one or more specified fields."
        [("DBInstanceClass", ⟨.str "db.t3.micro", .str "db.t3.small", true⟩)]).status = "ERROR") :=
  compare_status_invariant (some [("DBInstanceClass", PyVal.str "db.t3.micro")])
    (some [("DBInstanceClass", PyVal.str "db.t3.small")]) ["DBInstanceClass"]
    (ComparisonResult.mk "DIFFERENCES_FOUND" "Differences found for one or more specified fields."
      [("DBInstanceClass", ⟨.str "db.t3.micro", .str "db.t3.small", true⟩)]) rfl

theorem pyEq_none_char (v : PyVal) : pyEq v PyVal.none = (v matches PyVal.none) ∧
    pyEq PyVal.none v = (v matches PyVal.none) := by
  cases v <;> exact ⟨rfl, rfl⟩

/-- C6 (amended): a field missing from a record is read as the value
`None`, never an error.  A field absent from both records compares equal
(`diff = false`).  A field absent from exactly one record is compared as
`None` against the present value, so it compares unequal exactly when the
present value is not itself `None`: a field present with value `None` on
one side and absent on the other compares equal. -/
theorem compareField_missing_field (r1 r2 : Record) (f : String) :
    (lookupKey f r1 = Option.none → lookupKey f r2 = Option.none →
      compareField r1 r2 f = some ⟨.str "None", .str "None", false⟩)
    ∧ (∀ v1, lookupKey f r1 = some v1 → lookupKey f r2 = Option.none →
      compareField r1 r2 f = some ⟨.str (pyStr v1), .str "None", !pyEq v1 PyVal.none⟩)
    ∧ (∀ v2, lookupKey f r1 = Option.none → lookupKey f r2 = some v2 →
      compareField r1 r2 f = some ⟨.str "None", .str (pyStr v2), !pyEq PyVal.none v2⟩)
    ∧ (∀ v, v ≠ PyVal.none → pyEq v PyVal.none = false ∧ pyEq PyVal.none v = false)
    ∧ pyEq PyVal.none PyVal.none = true := by
  refine ⟨?_, ?_, ?_, ?_, rfl⟩
  · intro h1 h2
    simp only [compareField, h1, h2]
    rfl
  · intro v1 h1 h2
    cases v1 <;> (simp only [compareField, h1, h2]; rfl)
  · intro v2 h1 h2
    cases v2 <;> (simp only [compareField, h1, h2]; rfl)
  · intro v hv
    cases v with
    | none => exact absurd rfl hv
    | bool b => exact ⟨rfl, rfl⟩
    | int n => exact ⟨rfl, rfl⟩
    | str s => exact ⟨rfl, rfl⟩
    | list xs => exact ⟨rfl, rfl⟩
    | dict kvs => exact ⟨rfl, rfl⟩

theorem compareField_missing_field_witness :
    compareField [("x", PyVal.int 7)] [("y", PyVal.int 7)] "q" =
      some ⟨.str "None", .str "None", false⟩
    ∧ compareField [("x", PyVal.int 7)] [("y", PyVal.int 7)] "x" =
      some ⟨.str (pyStr (PyVal.int 7)), .str "None", !pyEq (PyVal.int 7) PyVal.none⟩ :=
  ⟨(compareField_missing_field [("x", PyVal.int 7)] [("y", PyVal.int 7)] "q").1 rfl rfl,
   (compareField_missing_field [("x", PyVal.int 7)] [("y", PyVal.int 7)] "x").2.1
     (PyVal.int 7) rfl rfl⟩

/-- C6 counterexample to the claim as stated: the field `"f"` is present
(with value `None`) in the first record and absent from the second — so it
is absent from exactly one record — yet the comparison yields
`diff = false`, because the missing side is read as `None` and
`None == None`. -/
theorem compare_missing_one_side_can_be_equal :
    lookupKey "f" [("f", PyVal.none)] = some PyVal.none
    ∧ lookupKey "f" ([("g", PyVal.int 1)] : Record) = Option.none
    ∧ compare_rds_fields (some [("f", PyVal.none)]) (some [("g", PyVal.int 1)]) ["f"] =
      some ⟨"SUCCESS", "No differences found for specified fields.",
        [("f", ⟨.str "None", .str "None", false⟩)]⟩ :=
  ⟨rfl, rfl, rfl⟩

/-- C1 (amended): the values recorded in a FieldDifference are the
normalized forms only in the security-group branch (the sorted identifier
lists) and in the scalar branch (the canonical `str()` forms, recorded by
the theorem for the scalar branch); for all other list fields and for
mapping fields the *raw* input values are recorded while the comparison
uses the normalized forms (the sorted sequences, the key-sorted
serializations), so for those kinds the recorded forms are not the forms
used for the equality test. -/
theorem compareField_recorded_forms (r1 r2 : Record) (f : String) :
    (∀ l1 l2 s1 s2, (lookupKey f r1).getD .none = .list l1 →
      (lookupKey f r2).getD .none = .list l2 → f ≠ "VpcSecurityGroups" →
      pySorted l1 = some s1 → pySorted l2 = some s2 →
      compareField r1 r2 f = some ⟨.list l1, .list l2, !pyListEq s1 s2⟩)
    ∧ (∀ l1 l2 raw1 raw2 ids1 ids2, (lookupKey f r1).getD .none = .list l1 →
      (lookupKey f r2).getD .none = .list l2 → f = "VpcSecurityGroups" →
      sgIds l1 = some raw1 → pySorted raw1 = some ids1 →
      sgIds l2 = some raw2 → pySorted raw2 = some ids2 →
      compareField r1 r2 f = some ⟨.list ids1, .list ids2, !pyListEq ids1 ids2⟩)
    ∧ (∀ d1 d2, (lookupKey f r1).getD .none = .dict d1 →
      (lookupKey f r2).getD .none = .dict d2 →
      compareField r1 r2 f =
        some ⟨.dict d1, .dict d2, !decide (jsonDumps (.dict d1) = jsonDumps (.dict d2))⟩) := by
  refine ⟨?_, ?_, ?_⟩
  · intro l1 l2 s1 s2 hv1 hv2 hne hs1 hs2
    simp only [compareField, hv1, hv2, if_neg hne, hs1, hs2]
  · intro l1 l2 raw1 raw2 ids1 ids2 hv1 hv2 heq hraw1 hids1 hraw2 hids2
    simp only [compareField, hv1, hv2, if_pos heq, hraw1, hids1, hraw2, hids2]
  · intro d1 d2 hv1 hv2
    simp only [compareField, hv1, hv2]

theorem compareField_recorded_forms_witness :
    compareField [("Tags", PyVal.list [.str "b", .str "a"])]
      [("Tags", PyVal.list [.str "a", .str "b"])] "Tags" =
      some ⟨.list [.str "b", .str "a"], .list [.str "a", .str "b"],
        !pyListEq [PyVal.str "a", PyVal.str "b"] [PyVal.str "a", PyVal.str "b"]⟩ :=
  (compareField_recorded_forms [("Tags", PyVal.list [.str "b", .str "a"])]
      [("Tags", PyVal.list [.str "a", .str "b"])] "Tags").1
    [.str "b", .str "a"] [.str "a", .str "b"]
    [.str "a", .str "b"] [.str "a", .str "b"] rfl rfl (by decide) rfl rfl

/-- C1 counterexample to the claim as stated: for the list field `Tags`
the equality test uses the sorted sequences (which here are equal, so
`diff = false`), but the FieldDifference records the raw input lists
`["b","a"]` and `["a","b"]` — two values that are not even equal to each
other, hence not both equal to the single normalized form used for the
comparison. -/
theorem compare_list_records_raw_values :
    compare_rds_fields (some [("Tags", PyVal.list [.str "b", .str "a"])])
      (some [("Tags", PyVal.list [.str "a", .str "b"])]) ["Tags"] =
      some ⟨"SUCCESS", "No differences found for specified fields.",
        [("Tags", ⟨.list [.str "b", .str "a"], .list [.str "a", .str "b"], false⟩)]⟩
    ∧ pySorted [PyVal.str "b", PyVal.str "a"] = some [PyVal.str "a", PyVal.str "b"]
    ∧ pySorted [PyVal.str "a", PyVal.str "b"] = some [PyVal.str "a", PyVal.str "b"]
    ∧ pyListEq [PyVal.str "b", PyVal.str "a"] [PyVal.str "a", PyVal.str "b"] = false :=
  ⟨rfl, rfl, rfl, rfl⟩

/-- C3 (amended): in the scalar/mismatched-kind branch the two raw values
are compared with Python `==` (not via canonical string forms) and the
`str()` forms are recorded.  Under Python `==`, booleans are numbers
(`True == 1`), so a boolean and a numerically equal number — though of
different kinds — compare equal; any other pair of distinct kinds is never
equal. -/
theorem compareField_scalar_branch (r1 r2 : Record) (f : String) :
    ((isList ((lookupKey f r1).getD .none) && isList ((lookupKey f r2).getD .none)) = false →
     (isDict ((lookupKey f r1).getD .none) && isDict ((lookupKey f r2).getD .none)) = false →
      compareField r1 r2 f =
        some ⟨.str (pyStr ((lookupKey f r1).getD .none)),
          .str (pyStr ((lookupKey f r2).getD .none)),
          !pyEq ((lookupKey f r1).getD .none) ((lookupKey f r2).getD .none)⟩)
    ∧ (∀ b n, pyEq (.bool b) (.int n) = decide ((if b then (1 : Int) else 0) = n))
    ∧ (∀ v1 v2, pyKind v1 ≠ pyKind v2 → (isNumKind v1 && isNumKind v2) = false →
        pyEq v1 v2 = false) := by
  refine ⟨?_, fun b n => rfl, ?_⟩
  · intro hl hd
    cases hv1 : (lookupKey f r1).getD .none <;> cases hv2 : (lookupKey f r2).getD .none <;>
      rw [hv1, hv2] at hl hd <;>
      simp only [compareField, hv1, hv2] <;>
      first
        | rfl
        | (simp [isList] at hl; done)
        | (simp [isDict] at hd; done)
  · intro v1 v2 hk hnum
    cases v1 <;> cases v2 <;>
      first
        | rfl
        | (exact absurd rfl hk)
        | (exact absurd hnum (by simp [isNumKind]))

theorem compareField_scalar_branch_witness :
    compareField [("MultiAZ", PyVal.bool true)] [("MultiAZ", PyVal.int 1)] "MultiAZ" =
      some ⟨.str (pyStr ((lookupKey "MultiAZ" [("MultiAZ", PyVal.bool true)]).getD .none)),
        .str (pyStr ((lookupKey "MultiAZ" [("MultiAZ", PyVal.int 1)]).getD .none)),
        !pyEq ((lookupKey "MultiAZ" [("MultiAZ", PyVal.bool true)]).getD .none)
          ((lookupKey "MultiAZ" [("MultiAZ", PyVal.int 1)]).getD .none)⟩
    ∧ pyEq (.bool true) (.int 1) = decide ((if true then (1 : Int) else 0) = 1)
    ∧ pyEq (.str "x") (.int 1) = false :=
  ⟨(compareField_scalar_branch [("MultiAZ", PyVal.bool true)] [("MultiAZ", PyVal.int 1)]
      "MultiAZ").1 rfl rfl,
   (compareField_scalar_branch [] [] "f").2.1 true 1,
   (compareField_scalar_branch [] [] "f").2.2 (.str "x") (.int 1) (by decide) rfl⟩

/-- C3 counterexample to the claim as stated: `MultiAZ` holds a boolean in
the first record and a number in the second — two different kinds — yet
the comparison yields `diff = false`, because Python compares `True == 1`
numerically; the claim's "mismatched kinds are never equal" fails for the
bool/number pair. -/
theorem compare_bool_int_mismatched_kinds_equal :
    pyKind (PyVal.bool true) ≠ pyKind (PyVal.int 1)
    ∧ compare_rds_fields (some [("MultiAZ", PyVal.bool true)])
        (some [("MultiAZ", PyVal.int 1)]) ["MultiAZ"] =
      some ⟨"SUCCESS", "No differences found for specified fields.",
        [("MultiAZ", ⟨.str "True", .str "1", false⟩)]⟩ :=
  ⟨by decide, rfl⟩

theorem compareLoop_none (r1 r2 : Record) :
    ∀ (fs : List String) (found : Bool) (diffs : List (String × FieldDiff)),
      (∃ f ∈ fs, compareField r1 r2 f = Option.none) →
      compareLoop r1 r2 fs found diffs = Option.none
  | [], _, _, ⟨f, hf, _⟩ => absurd hf (List.not_mem_nil f)
  | g :: fs, found, diffs, ⟨f, hf, hcf⟩ => by
    simp only [compareLoop]
    cases hg : compareField r1 r2 g with
    | none => rfl
    | some fd =>
      rcases List.mem_cons.mp hf with h1 | h1
      · subst h1; rw [hg] at hcf; exact absurd hcf (by simp)
      · exact compareLoop_none r1 r2 fs _ _ ⟨f, h1, hcf⟩

/-- C2 (amended): there is no fallback to order-preserving equality.  For
a (non-security-group) field whose two values are lists, if sorting the
first list raises a `TypeError` (its elements are not mutually
comparable), the per-field comparison raises; and any exception raised by
a requested field's comparison escapes `compare_rds_fields` (the result is
`Option.none`, modelling the escaping exception), so the function is not
exception-free on all well-formed inputs. -/
theorem compare_sort_exception_escapes (r1 r2 : Record) (fs : List String) (f : String) :
    (∀ l1 l2, (lookupKey f r1).getD .none = .list l1 →
      (lookupKey f r2).getD .none = .list l2 → f ≠ "VpcSecurityGroups" →
      pySorted l1 = Option.none → compareField r1 r2 f = Option.none)
    ∧ (f ∈ fs → compareField r1 r2 f = Option.none → r1 ≠ [] → r2 ≠ [] →
      compare_rds_fields (some r1) (some r2) fs = Option.none) := by
  constructor
  · intro l1 l2 hv1 hv2 hne hs
    simp only [compareField, hv1, hv2, if_neg hne, hs]
  · intro hmem hcf h1 h2
    have he1 : r1.isEmpty = false := by cases r1 with
      | nil => exact absurd rfl h1
      | cons p l => rfl
    have he2 : r2.isEmpty = false := by cases r2 with
      | nil => exact absurd rfl h2
      | cons p l => rfl
    simp only [compare_rds_fields, he1, he2]
    rw [compareLoop_none r1 r2 fs false [] ⟨f, hmem, hcf⟩]
    rfl

theorem compare_sort_exception_escapes_witness :
    compareField [("Tags", PyVal.list [.int 1, .str "a"])]
      [("Tags", PyVal.list [.int 1, .str "a"])] "Tags" = Option.none
    ∧ compare_rds_fields (some [("Tags", PyVal.list [.int 1, .str "a"])])
      (some [("Tags", PyVal.list [.int 1, .str "a"])]) ["Tags"] = Option.none :=
  ⟨(compare_sort_exception_escapes [("Tags", PyVal.list [.int 1, .str "a"])]
      [("Tags", PyVal.list [.int 1, .str "a"])] ["Tags"] "Tags").1
      [.int 1, .str "a"] [.int 1, .str "a"] rfl rfl (by decide) rfl,
   (compare_sort_exception_escapes [("Tags", PyVal.list [.int 1, .str "a"])]
      [("Tags", PyVal.list [.int 1, .str "a"])] ["Tags"] "Tags").2
      (List.mem_singleton.mpr rfl) rfl (by simp) (by simp)⟩

/-- C2 counterexample to the claim as stated: both values of `Tags` are
the same well-formed list `[1, "a"]`, whose elements are not mutually
comparable; Python's `sorted` raises `TypeError` and the exception escapes
`compare_rds_fields` (result `Option.none`) instead of falling back to
order-preserving equality (which would have returned a report). -/
theorem compare_incomparable_list_raises :
    pyLt (PyVal.int 1) (PyVal.str "a") = Option.none
    ∧ pyLt (PyVal.str "a") (PyVal.int 1) = Option.none
    ∧ compare_rds_fields (some [("Tags", PyVal.list [.int 1, .str "a"])])
      (some [("Tags", PyVal.list [.int 1, .str "a"])]) ["Tags"] = Option.none :=
  ⟨rfl, rfl, rfl⟩

theorem updateEntry_keys (l : List (String × FieldDiff)) (f : String) (fd : FieldDiff) :
    (updateEntry l f fd).map Prod.fst =
      if (l.map Prod.fst).contains f then l.map Prod.fst else l.map Prod.fst ++ [f] := by
  induction l with
  | nil => simp [updateEntry]
  | cons p rest ih =>
    obtain ⟨k, v⟩ := p
    simp only [updateEntry, List.map_cons]
    by_cases hk : k = f
    · subst hk
      simp
    · rw [if_neg hk]
      simp only [List.map_cons, ih, List.contains_cons]
      have hbeq : (f == k) = false := by
        cases hfk : f == k with
        | false => rfl
        | true => exact absurd (Ne.symm hk) (by simpa using hfk)
      rw [hbeq]
      by_cases hc : (rest.map Prod.fst).contains f = true
      · rw [if_pos hc,
          if_pos (show (false || (List.map Prod.fst rest).contains f) = true by
            rw [Bool.false_or, hc])]
      · simp only [Bool.false_or]
        rw [if_neg (by simpa using hc), if_neg (by simpa using hc)]
        simp

theorem lookupKey_updateEntry_self (l : List (String × FieldDiff)) (f : String) (fd : FieldDiff) :
    lookupKey f (updateEntry l f fd) = some fd := by
  induction l with
  | nil => simp [updateEntry, lookupKey]
  | cons p rest ih =>
    obtain ⟨k, v⟩ := p
    simp only [updateEntry]
    by_cases hk : k = f
    · rw [if_pos hk]
      simp [lookupKey]
    · rw [if_neg hk]
      simp only [lookupKey]
      rw [if_neg (fun he => hk he.symm)]
      exact ih

theorem lookupKey_updateEntry_other (l : List (String × FieldDiff)) (f g : String)
    (fd : FieldDiff) (h : g ≠ f) :
    lookupKey g (updateEntry l f fd) = lookupKey g l := by
  induction l with
  | nil => simp [updateEntry, lookupKey, if_neg h]
  | cons p rest ih =>
    obtain ⟨k, v⟩ := p
    simp only [updateEntry]
    by_cases hk : k = f
    · rw [if_pos hk]
      simp only [lookupKey]
      rw [if_neg h, if_neg (hk ▸ h)]
    · rw [if_neg hk]
      simp only [lookupKey]
      by_cases hg : g = k
      · rw [if_pos hg, if_pos hg]
      · rw [if_neg hg, if_neg hg]
        exact ih

theorem firstDedupAux_congr : ∀ (l : List String) (seen1 seen2 : List String),
    (∀ g : String, seen1.contains g = seen2.contains g) →
    firstDedupAux seen1 l = firstDedupAux seen2 l
  | [], _, _, _ => rfl
  | f :: fs, seen1, seen2, h => by
    simp only [firstDedupAux, h f]
    by_cases hc : seen2.contains f = true
    · rw [if_pos hc, if_pos hc]
      exact firstDedupAux_congr fs seen1 seen2 h
    · rw [if_neg hc, if_neg hc]
      rw [firstDedupAux_congr fs (f :: seen1) (f :: seen2)
        (fun g => by simp only [List.contains_cons, h g])]

theorem compareLoop_lookup_preserved (r1 r2 : Record) :
    ∀ (fs : List String) (found : Bool) (diffs : List (String × FieldDiff))
      (out : Bool × List (String × FieldDiff)),
      compareLoop r1 r2 fs found diffs = some out →
      ∀ g, g ∉ fs → lookupKey g out.2 = lookupKey g diffs
  | [], found, diffs, out, h, g, _ => by
    simp only [compareLoop, Option.some_inj] at h
    rw [← h]
  | f :: fs, found, diffs, out, h, g, hg => by
    simp only [compareLoop] at h
    cases hcf : compareField r1 r2 f with
    | none => rw [hcf] at h; exact absurd h (by simp)
    | some fd =>
      rw [hcf] at h
      have hgf : g ≠ f := fun he => hg (he ▸ List.mem_cons_self f fs)
      have hgfs : g ∉ fs := fun he => hg (List.mem_cons_of_mem f he)
      rw [compareLoop_lookup_preserved r1 r2 fs _ _ out h g hgfs]
      exact lookupKey_updateEntry_other diffs f g fd hgf

theorem compareLoop_lookup (r1 r2 : Record) :
    ∀ (fs : List String) (found : Bool) (diffs : List (String × FieldDiff))
      (out : Bool × List (String × FieldDiff)),
      compareLoop r1 r2 fs found diffs = some out →
      ∀ f ∈ fs, lookupKey f out.2 = compareField r1 r2 f
  | [], _, _, _, _, f, hf => absurd hf (List.not_mem_nil f)
  | g :: fs, found, diffs, out, h, f, hf => by
    simp only [compareLoop] at h
    cases hcf : compareField r1 r2 g with
    | none => rw [hcf] at h; exact absurd h (by simp)
    | some fd =>
      rw [hcf] at h
      by_cases hmem : f ∈ fs
      · exact compareLoop_lookup r1 r2 fs _ _ out h f hmem
      · have hfg : f = g := by
          rcases List.mem_cons.mp hf with h1 | h1
          · exact h1
          · exact absurd h1 hmem
        subst hfg
        rw [compareLoop_lookup_preserved r1 r2 fs _ _ out h f hmem,
          lookupKey_updateEntry_self, hcf]

theorem contains_append_singleton (l : List String) (x g : String) :
    (l ++ [x]).contains g = (x :: l).contains g := by
  induction l with
  | nil => rfl
  | cons a t ih =>
    simp only [List.cons_append, List.contains_cons, ih, List.contains_cons]
    cases g == a <;> cases g == x <;> simp

theorem compareLoop_keys (r1 r2 : Record) :
    ∀ (fs : List String) (found : Bool) (diffs : List (String × FieldDiff))
      (out : Bool × List (String × FieldDiff)),
      compareLoop r1 r2 fs found diffs = some out →
      out.2.map Prod.fst = diffs.map Prod.fst ++ firstDedupAux (diffs.map Prod.fst) fs
  | [], found, diffs, out, h => by
    simp only [compareLoop, Option.some_inj] at h
    rw [← h]
    simp [firstDedupAux]
  | f :: fs, found, diffs, out, h => by
    simp only [compareLoop] at h
    cases hcf : compareField r1 r2 f with
    | none => rw [hcf] at h; exact absurd h (by simp)
    | some fd =>
      rw [hcf] at h
      have hrec := compareLoop_keys r1 r2 fs _ _ out h
      rw [updateEntry_keys] at hrec
      simp only [firstDedupAux]
      by_cases hc : (diffs.map Prod.fst).contains f = true
      · rw [if_pos hc] at hrec
        rw [hrec, if_pos hc]
      · rw [if_neg hc] at hrec
        rw [hrec, if_neg hc]
        rw [firstDedupAux_congr fs (diffs.map Prod.fst ++ [f]) (f :: diffs.map Prod.fst)
          (fun g => contains_append_singleton (diffs.map Prod.fst) f g)]
        simp

/-- C10: when both records are present and non-empty and
`compare_rds_fields` returns a report, its differences mapping has exactly
one entry per distinct requested field name, with keys in order of each
name's first occurrence in the requested list, and looking any requested
name up in the mapping yields exactly the (deterministic) result of
comparing that field — so a name requested more than once yields a single
entry equal to that comparison. -/
theorem compare_differences_shape (r1 r2 : Record) (fs : List String)
    (rep : ComparisonResult) (h1 : r1 ≠ []) (h2 : r2 ≠ [])
    (h : compare_rds_fields (some r1) (some r2) fs = some rep) :
    rep.differences.map Prod.fst = firstDedup fs
    ∧ (∀ f ∈ fs, lookupKey f rep.differences = compareField r1 r2 f) := by
  have he1 : r1.isEmpty = false := by
    cases r1 with
    | nil => exact absurd rfl h1
    | cons p l => rfl
  have he2 : r2.isEmpty = false := by
    cases r2 with
    | nil => exact absurd rfl h2
    | cons p l => rfl
  simp only [compare_rds_fields, he1, he2, Bool.or_self, Bool.false_eq_true, if_false] at h
  cases hloop : compareLoop r1 r2 fs false [] with
  | none => rw [hloop] at h; exact absurd h (by simp)
  | some out =>
    rw [hloop] at h
    obtain ⟨found, diffs⟩ := out
    have hdiffs : rep.differences = diffs := by
      cases found <;> simp only [if_pos, if_neg, Bool.false_eq_true,
        not_false_iff] at h <;> rw [← Option.some_inj.mp h]
    constructor
    · rw [hdiffs]
      have := compareLoop_keys r1 r2 fs false [] (found, diffs) hloop
      simpa [firstDedup] using this
    · intro f hf
      rw [hdiffs]
      exact compareLoop_lookup r1 r2 fs false [] (found, diffs) hloop f hf

theorem compare_differences_shape_witness :
    ([("a", FieldDiff.mk (.str "1") (.str "1") false),
      ("b", FieldDiff.mk (.str "2") (.str "3") true)].map Prod.fst = firstDedup ["a", "b", "a"])
    ∧ (∀ f ∈ ["a", "b", "a"],
        lookupKey f [("a", FieldDiff.mk (.str "1") (.str "1") false),
          ("b", FieldDiff.mk (.str "2") (.str "3") true)] =
        compareField [("a", PyVal.int 1), ("b", PyVal.int 2)]
          [("a", PyVal.int 1), ("b", PyVal.int 3)] f) := by
  have h := compare_differences_shape [("a", PyVal.int 1), ("b", PyVal.int 2)]
    [("a", PyVal.int 1), ("b", PyVal.int 3)] ["a", "b", "a"]
    ⟨"DIFFERENCES_FOUND", "Differences found for one or more specified fields.",
      [("a", FieldDiff.mk (.str "1") (.str "1") false),
        ("b", FieldDiff.mk (.str "2") (.str "3") true)]⟩
    (by simp) (by simp) rfl
  exact h

theorem charListLt_asymm : ∀ a b, charListLt a b = true → charListLt b a = false
  | [], [], h => by simp [charListLt] at h
  | [], _ :: _, _ => rfl
  | _ :: _, [], h => by simp [charListLt] at h
  | c :: cs, d :: ds, h => by
    simp only [charListLt] at h ⊢
    by_cases hcd : c.toNat < d.toNat
    · rw [if_neg (by omega), if_pos (by omega)]
    · rw [if_neg hcd] at h
      by_cases hdc : d.toNat < c.toNat
      · rw [if_pos hdc] at h
        exact absurd h (by decide)
      · rw [if_neg hdc] at h
        rw [if_neg hdc, if_neg hcd]
        exact charListLt_asymm cs ds h

theorem charListLt_ff_eq : ∀ a b, charListLt a b = false → charListLt b a = false → a = b
  | [], [], _, _ => rfl
  | [], _ :: _, h, _ => by simp [charListLt] at h
  | _ :: _, [], _, h => by simp [charListLt] at h
  | c :: cs, d :: ds, h1, h2 => by
    simp only [charListLt] at h1 h2
    by_cases hcd : c.toNat < d.toNat
    · rw [if_pos hcd] at h1
      exact absurd h1 (by decide)
    · by_cases hdc : d.toNat < c.toNat
      · rw [if_pos hdc] at h2
        exact absurd h2 (by decide)
      · rw [if_neg hcd, if_neg hdc] at h1
        rw [if_neg hdc, if_neg hcd] at h2
        have hc : c = d := Char.ext (by
          apply UInt32.ext ?_
          simp only [Char.toNat] at hcd hdc
          omega)
        rw [hc, charListLt_ff_eq cs ds h1 h2]

theorem strLt_asymm (a b : String) (h : strLt a b = true) : strLt b a = false :=
  charListLt_asymm a.data b.data h

theorem strLt_ff_eq (a b : String) (h1 : strLt a b = false) (h2 : strLt b a = false) : a = b := by
  cases a
  cases b
  simp only [strLt] at h1 h2
  simp [charListLt_ff_eq _ _ h1 h2]

mutual

theorem pyEq_symm_of_lt_isSome : ∀ a b, pyEq a b = true → (pyLt b a).isSome → pyEq b a = true
  | .none, b, h1, h2 => by cases b <;> simp [pyEq, pyLt] at h1 h2 ⊢
  | .bool x, b, h1, h2 => by
    cases b with
    | bool y => simp [pyEq] at h1 ⊢; exact h1.symm
    | int n => simp [pyEq] at h1 ⊢; omega
    | none => simp [pyEq] at h1
    | str t => simp [pyEq] at h1
    | list bs => simp [pyEq] at h1
    | dict db => simp [pyEq] at h1
  | .int m, b, h1, h2 => by
    cases b with
    | bool y => simp [pyEq] at h1 ⊢; omega
    | int n => simp [pyEq] at h1 ⊢; omega
    | none => simp [pyEq] at h1
    | str t => simp [pyEq] at h1
    | list bs => simp [pyEq] at h1
    | dict db => simp [pyEq] at h1
  | .str s, b, h1, h2 => by
    cases b with
    | str t => simp [pyEq] at h1 ⊢; exact h1.symm
    | none => simp [pyEq] at h1
    | bool y => simp [pyEq] at h1
    | int n => simp [pyEq] at h1
    | list bs => simp [pyEq] at h1
    | dict db => simp [pyEq] at h1
  | .list as, b, h1, h2 => by
    cases b with
    | list bs => exact pyListEq_symm_of_lt_isSome as bs h1 h2
    | none => simp [pyEq] at h1
    | bool y => simp [pyEq] at h1
    | int n => simp [pyEq] at h1
    | str t => simp [pyEq] at h1
    | dict db => simp [pyEq] at h1
  | .dict da, b, h1, h2 => by
    cases b <;> simp [pyEq, pyLt] at h1 h2 ⊢
termination_by a _ _ _ => sizeOf a

theorem pyListEq_symm_of_lt_isSome :
    ∀ as bs, pyListEq as bs = true → (pyListLt bs as).isSome → pyListEq bs as = true
  | [], [], _, _ => rfl
  | [], _ :: _, h1, _ => by simp [pyListEq] at h1
  | _ :: _, [], h1, _ => by simp [pyListEq] at h1
  | x :: xs, y :: ys, h1, h2 => by
    simp only [pyListEq, Bool.and_eq_true] at h1
    obtain ⟨hxy, hxs⟩ := h1
    simp only [pyListLt] at h2
    by_cases hyx : pyEq y x = true
    · rw [if_pos hyx] at h2
      simp only [pyListEq, Bool.and_eq_true]
      exact ⟨hyx, pyListEq_symm_of_lt_isSome xs ys hxs h2⟩
    · rw [if_neg hyx] at h2
      exact absurd (pyEq_symm_of_lt_isSome x y hxy h2) hyx
termination_by as _ _ _ => sizeOf as

end

mutual

theorem pyLt_asymm : ∀ a b r, pyLt a b = some true → pyLt b a = some r → r = false
  | .none, b, r, h1, _ => by cases b <;> simp [pyLt] at h1
  | .dict da, b, r, h1, _ => by cases b <;> simp [pyLt] at h1
  | .bool x, b, r, h1, h2 => by
    cases b with
    | bool z =>
      simp only [pyLt, Option.some_inj, decide_eq_true_eq] at h1 h2
      subst h2
      simp only [decide_eq_false_iff_not]
      omega
    | int n =>
      simp only [pyLt, Option.some_inj, decide_eq_true_eq] at h1 h2
      subst h2
      simp only [decide_eq_false_iff_not]
      omega
    | none => simp [pyLt] at h1
    | str t => simp [pyLt] at h1
    | list bs => simp [pyLt] at h1
    | dict db => simp [pyLt] at h1
  | .int m, b, r, h1, h2 => by
    cases b with
    | bool z =>
      simp only [pyLt, Option.some_inj, decide_eq_true_eq] at h1 h2
      subst h2
      simp only [decide_eq_false_iff_not]
      omega
    | int n =>
      simp only [pyLt, Option.some_inj, decide_eq_true_eq] at h1 h2
      subst h2
      simp only [decide_eq_false_iff_not]
      omega
    | none => simp [pyLt] at h1
    | str t => simp [pyLt] at h1
    | list bs => simp [pyLt] at h1
    | dict db => simp [pyLt] at h1
  | .str s, b, r, h1, h2 => by
    cases b with
    | str t =>
      simp only [pyLt, Option.some_inj] at h1 h2
      rw [strLt_asymm s t h1] at h2
      exact h2.symm
    | none => simp [pyLt] at h1
    | bool z => simp [pyLt] at h1
    | int n => simp [pyLt] at h1
    | list bs => simp [pyLt] at h1
    | dict db => simp [pyLt] at h1
  | .list as, b, r, h1, h2 => by
    cases b with
    | list bs => exact pyListLt_asymm as bs r h1 h2
    | none => simp [pyLt] at h1
    | bool z => simp [pyLt] at h1
    | int n => simp [pyLt] at h1
    | str t => simp [pyLt] at h1
    | dict db => simp [pyLt] at h1
termination_by a _ _ _ _ => sizeOf a

theorem pyListLt_asymm :
    ∀ as bs r, pyListLt as bs = some true → pyListLt bs as = some r → r = false
  | [], [], _, h1, _ => by simp [pyListLt] at h1
  | [], _ :: _, r, _, h2 => by
    simp only [pyListLt, Option.some_inj] at h2
    exact h2.symm
  | _ :: _, [], _, h1, _ => by simp [pyListLt] at h1
  | x :: xs, z :: zs, r, h1, h2 => by
    simp only [pyListLt] at h1 h2
    by_cases hxz : pyEq x z = true
    · rw [if_pos hxz] at h1
      by_cases hzx : pyEq z x = true
      · rw [if_pos hzx] at h2
        exact pyListLt_asymm xs zs r h1 h2
      · rw [if_neg hzx] at h2
        exact absurd (pyEq_symm_of_lt_isSome x z hxz (by rw [h2]; rfl)) hzx
    · rw [if_neg hxz] at h1
      by_cases hzx : pyEq z x = true
      · exact absurd (pyEq_symm_of_lt_isSome z x hzx (by rw [h1]; rfl)) hxz
      · rw [if_neg hzx] at h2
        exact pyLt_asymm x z r h1 h2
termination_by as _ _ _ _ => sizeOf as

end

mutual

theorem pyLt_ff_eq : ∀ a b, pyLt a b = some false → pyLt b a = some false → pyEq a b = true
  | .none, b, h1, _ => by cases b <;> simp [pyLt] at h1
  | .dict da, b, h1, _ => by cases b <;> simp [pyLt] at h1
  | .bool x, b, h1, h2 => by
    cases b with
    | bool z =>
      simp only [pyLt, Option.some_inj, decide_eq_false_iff_not] at h1 h2
      simp only [pyEq, decide_eq_true_eq]
      cases x <;> cases z <;> first | rfl | (simp at h1 h2)
    | int n =>
      simp only [pyLt, Option.some_inj, decide_eq_false_iff_not] at h1 h2
      simp only [pyEq, decide_eq_true_eq]
      cases x <;> simp at h1 h2 ⊢ <;> omega
    | none => simp [pyLt] at h1
    | str t => simp [pyLt] at h1
    | list bs => simp [pyLt] at h1
    | dict db => simp [pyLt] at h1
  | .int m, b, h1, h2 => by
    cases b with
    | bool z =>
      simp only [pyLt, Option.some_inj, decide_eq_false_iff_not] at h1 h2
      simp only [pyEq, decide_eq_true_eq]
      cases z <;> simp at h1 h2 ⊢ <;> omega
    | int n =>
      simp only [pyLt, Option.some_inj, decide_eq_false_iff_not] at h1 h2
      simp only [pyEq, decide_eq_true_eq]
      omega
    | none => simp [pyLt] at h1
    | str t => simp [pyLt] at h1
    | list bs => simp [pyLt] at h1
    | dict db => simp [pyLt] at h1
  | .str s, b, h1, h2 => by
    cases b with
    | str t =>
      simp only [pyLt, Option.some_inj] at h1 h2
      simp only [pyEq, decide_eq_true_eq]
      exact strLt_ff_eq s t h1 h2
    | none => simp [pyLt] at h1
    | bool z => simp [pyLt] at h1
    | int n => simp [pyLt] at h1
    | list bs => simp [pyLt] at h1
    | dict db => simp [pyLt] at h1
  | .list as, b, h1, h2 => by
    cases b with
    | list bs => exact pyListLt_ff_eq as bs h1 h2
    | none => simp [pyLt] at h1
    | bool z => simp [pyLt] at h1
    | int n => simp [pyLt] at h1
    | str t => simp [pyLt] at h1
    | dict db => simp [pyLt] at h1
termination_by a _ _ _ => sizeOf a

theorem pyListLt_ff_eq :
    ∀ as bs, pyListLt as bs = some false → pyListLt bs as = some false → pyListEq as bs = true
  | [], [], _, _ => rfl
  | [], _ :: _, h1, _ => by simp [pyListLt] at h1
  | _ :: _, [], _, h2 => by simp [pyListLt] at h2
  | x :: xs, z :: zs, h1, h2 => by
    simp only [pyListLt] at h1 h2
    by_cases hxz : pyEq x z = true
    · rw [if_pos hxz] at h1
      by_cases hzx : pyEq z x = true
      · rw [if_pos hzx] at h2
        simp only [pyListEq, Bool.and_eq_true]
        exact ⟨hxz, pyListLt_ff_eq xs zs h1 h2⟩
      · rw [if_neg hzx] at h2
        exact absurd (pyEq_symm_of_lt_isSome x z hxz (by rw [h2]; rfl)) hzx
    · rw [if_neg hxz] at h1
      by_cases hzx : pyEq z x = true
      · exact absurd (pyEq_symm_of_lt_isSome z x hzx (by rw [h1]; rfl)) hxz
      · rw [if_neg hzx] at h2
        exact absurd (pyLt_ff_eq x z h1 h2) hxz
termination_by as _ _ _ => sizeOf as

end

theorem pyEq_refl_of_lt_self (z : PyVal) (h : (pyLt z z).isSome) : pyEq z z = true := by
  cases hz : pyLt z z with
  | none => rw [hz] at h; simp at h
  | some b =>
    cases b with
    | true => exact absurd (pyLt_asymm z z true hz hz) (by decide)
    | false => exact pyLt_ff_eq z z hz hz

theorem pyDictSub_lookup :
    ∀ (db dc : List (String × PyVal)) (k : String) (w : PyVal),
      pyDictSub db dc = true → lookupKey k db = some w →
      ∃ u, lookupKey k dc = some u ∧ pyEq w u = true
  | [], _, _, _, _, hl => by simp [lookupKey] at hl
  | (k2, v2) :: rest, dc, k, w, hsub, hl => by
    simp only [pyDictSub, Bool.and_eq_true] at hsub
    obtain ⟨hm, hrest⟩ := hsub
    simp only [lookupKey] at hl
    by_cases hk : k = k2
    · rw [if_pos hk] at hl
      have hw : v2 = w := Option.some_inj.mp hl
      subst hw
      cases hu : lookupKey k2 dc with
      | none => rw [hu] at hm; simp at hm
      | some u =>
        rw [hu] at hm
        refine ⟨u, ?_, hm⟩
        rw [hk]
        exact hu
    · rw [if_neg hk] at hl
      exact pyDictSub_lookup rest dc k w hrest hl

mutual

theorem pyEq_trans : ∀ a b c, pyEq a b = true → pyEq b c = true → pyEq a c = true
  | .none, b, c, h1, h2 => by
    cases b with
    | none => exact h2
    | bool z => simp [pyEq] at h1
    | int n => simp [pyEq] at h1
    | str t => simp [pyEq] at h1
    | list bs => simp [pyEq] at h1
    | dict db => simp [pyEq] at h1
  | .bool x, b, c, h1, h2 => by
    cases b with
    | bool z =>
      have hxz : x = z := by simpa [pyEq] using h1
      subst hxz
      exact h2
    | int n =>
      cases c with
      | bool u => cases x <;> cases u <;> simp [pyEq] at h1 h2 ⊢ <;> omega
      | int p => cases x <;> simp [pyEq] at h1 h2 ⊢ <;> omega
      | none => simp [pyEq] at h2
      | str t => simp [pyEq] at h2
      | list cs => simp [pyEq] at h2
      | dict dc => simp [pyEq] at h2
    | none => simp [pyEq] at h1
    | str t => simp [pyEq] at h1
    | list bs => simp [pyEq] at h1
    | dict db => simp [pyEq] at h1
  | .int m, b, c, h1, h2 => by
    cases b with
    | int n =>
      have hmn : m = n := by simpa [pyEq] using h1
      subst hmn
      exact h2
    | bool z =>
      cases c with
      | bool u => cases z <;> cases u <;> simp [pyEq] at h1 h2 ⊢ <;> omega
      | int p => cases z <;> simp [pyEq] at h1 h2 ⊢ <;> omega
      | none => simp [pyEq] at h2
      | str t => simp [pyEq] at h2
      | list cs => simp [pyEq] at h2
      | dict dc => simp [pyEq] at h2
    | none => simp [pyEq] at h1
    | str t => simp [pyEq] at h1
    | list bs => simp [pyEq] at h1
    | dict db => simp [pyEq] at h1
  | .str s, b, c, h1, h2 => by
    cases b with
    | str t =>
      have hst : s = t := by simpa [pyEq] using h1
      subst hst
      exact h2
    | none => simp [pyEq] at h1
    | bool z => simp [pyEq] at h1
    | int n => simp [pyEq] at h1
    | list bs => simp [pyEq] at h1
    | dict db => simp [pyEq] at h1
  | .list as, b, c, h1, h2 => by
    cases b with
    | list bs =>
      cases c with
      | list cs => exact pyListEq_trans as bs cs h1 h2
      | none => simp [pyEq] at h2
      | bool u => simp [pyEq] at h2
      | int p => simp [pyEq] at h2
      | str t => simp [pyEq] at h2
      | dict dc => simp [pyEq] at h2
    | none => simp [pyEq] at h1
    | bool z => simp [pyEq] at h1
    | int n => simp [pyEq] at h1
    | str t => simp [pyEq] at h1
    | dict db => simp [pyEq] at h1
  | .dict da, b, c, h1, h2 => by
    cases b with
    | dict db =>
      cases c with
      | dict dc =>
        simp only [pyEq, Bool.and_eq_true, decide_eq_true_eq] at h1 h2 ⊢
        exact ⟨h1.1.trans h2.1, pyDictSub_trans3 da db dc h1.2 h2.2⟩
      | none => simp [pyEq] at h2
      | bool u => simp [pyEq] at h2
      | int p => simp [pyEq] at h2
      | str t => simp [pyEq] at h2
      | list cs => simp [pyEq] at h2
    | none => simp [pyEq] at h1
    | bool z => simp [pyEq] at h1
    | int n => simp [pyEq] at h1
    | str t => simp [pyEq] at h1
    | list bs => simp [pyEq] at h1
termination_by a _ _ _ _ => sizeOf a

theorem pyListEq_trans :
    ∀ as bs cs, pyListEq as bs = true → pyListEq bs cs = true → pyListEq as cs = true
  | [], bs, cs, h1, h2 => by
    cases bs with
    | nil =>
      cases cs with
      | nil => rfl
      | cons c cs' => simp [pyListEq] at h2
    | cons b bs' => simp [pyListEq] at h1
  | a :: as', bs, cs, h1, h2 => by
    cases bs with
    | nil => simp [pyListEq] at h1
    | cons b bs' =>
      cases cs with
      | nil => simp [pyListEq] at h2
      | cons c cs' =>
        simp only [pyListEq, Bool.and_eq_true] at h1 h2 ⊢
        exact ⟨pyEq_trans a b c h1.1 h2.1, pyListEq_trans as' bs' cs' h1.2 h2.2⟩
termination_by as _ _ _ _ => sizeOf as

theorem pyDictSub_trans3 :
    ∀ da db dc, pyDictSub da db = true → pyDictSub db dc = true → pyDictSub da dc = true
  | [], _, _, _, _ => rfl
  | (k, v) :: rest, db, dc, h1, h2 => by
    simp only [pyDictSub, Bool.and_eq_true] at h1 ⊢
    obtain ⟨hm, hrest⟩ := h1
    refine ⟨?_, pyDictSub_trans3 rest db dc hrest h2⟩
    cases hw : lookupKey k db with
    | none => rw [hw] at hm; simp at hm
    | some w =>
      rw [hw] at hm
      obtain ⟨u, hu, hwu⟩ := pyDictSub_lookup db dc k w h2 hw
      rw [hu]
      exact pyEq_trans v w u hm hwu
termination_by da _ _ _ _ => sizeOf da

end

theorem contains_eq_true_iff {l : List String} {k : String} : l.contains k = true ↔ k ∈ l := by
  induction l with
  | nil => simp
  | cons a t ih =>
    simp only [List.contains_cons, List.mem_cons, Bool.or_eq_true, ih]
    constructor
    · rintro (h | h)
      · exact Or.inl (by simpa using h)
      · exact Or.inr h
    · rintro (h | h)
      · exact Or.inl (by simpa using h)
      · exact Or.inr h

theorem pyWFList_mem : ∀ {xs : List PyVal}, pyWFList xs = true → ∀ x ∈ xs, pyWF x = true := by
  intro xs h x hx
  induction xs with
  | nil => exact absurd hx (List.not_mem_nil x)
  | cons y ys ih =>
    simp only [pyWFList, Bool.and_eq_true] at h
    rcases List.mem_cons.mp hx with h1 | h1
    · exact h1 ▸ h.1
    · exact ih h.2 h1

theorem pyWFKvs_mem : ∀ {kvs : List (String × PyVal)}, pyWFKvs kvs = true →
    ∀ p ∈ kvs, pyWF p.2 = true := by
  intro kvs h p hp
  induction kvs with
  | nil => exact absurd hp (List.not_mem_nil p)
  | cons q qs ih =>
    obtain ⟨k, v⟩ := q
    simp only [pyWFKvs, Bool.and_eq_true] at h
    rcases List.mem_cons.mp hp with h1 | h1
    · exact h1 ▸ h.1
    · exact ih h.2 h1

theorem lookupKey_mem {α : Type} : ∀ (l : List (String × α)) (k : String) (v : α),
    lookupKey k l = some v → (k, v) ∈ l
  | [], _, _, h => by simp [lookupKey] at h
  | (k2, v2) :: rest, k, v, h => by
    simp only [lookupKey] at h
    by_cases hk : k = k2
    · rw [if_pos hk] at h
      rw [hk, Option.some_inj.mp h]
      exact List.mem_cons_self _ _
    · rw [if_neg hk] at h
      exact List.mem_cons_of_mem _ (lookupKey_mem rest k v h)

theorem lookupKey_isSome_of_mem {α : Type} : ∀ (l : List (String × α)) (k : String),
    k ∈ l.map Prod.fst → ∃ v, lookupKey k l = some v
  | [], k, h => absurd h (by simp)
  | (k2, v2) :: rest, k, h => by
    simp only [List.map_cons, List.mem_cons] at h
    simp only [lookupKey]
    by_cases hk : k = k2
    · exact ⟨v2, by rw [if_pos hk]⟩
    · rcases h with h1 | h1
      · exact absurd h1 hk
      · obtain ⟨v, hv⟩ := lookupKey_isSome_of_mem rest k h1
        exact ⟨v, by rw [if_neg hk]; exact hv⟩

theorem keysNodup_nodup : ∀ {l : List (String × PyVal)}, keysNodup l = true →
    (l.map Prod.fst).Nodup := by
  intro l h
  induction l with
  | nil => simp
  | cons p rest ih =>
    obtain ⟨k, v⟩ := p
    simp only [keysNodup, Bool.and_eq_true] at h
    simp only [List.map_cons, List.nodup_cons]
    refine ⟨?_, ih h.2⟩
    intro hmem
    have := contains_eq_true_iff.mpr hmem
    rw [this] at h
    simp at h

theorem lookupKey_of_mem_nodup : ∀ (l : List (String × PyVal)) (k : String) (v : PyVal),
    keysNodup l = true → (k, v) ∈ l → lookupKey k l = some v
  | [], _, _, _, hm => absurd hm (List.not_mem_nil _)
  | (k2, v2) :: rest, k, v, hnd, hm => by
    simp only [keysNodup, Bool.and_eq_true] at hnd
    simp only [lookupKey]
    rcases List.mem_cons.mp hm with h1 | h1
    · rw [(Prod.mk.injEq _ _ _ _ ▸ h1 : k = k2 ∧ v = v2).1,
        if_pos rfl]
      exact congrArg some (Prod.mk.injEq _ _ _ _ ▸ h1 : k = k2 ∧ v = v2).2.symm
    · by_cases hk : k = k2
      · exfalso
        have : k ∈ rest.map Prod.fst := List.mem_map_of_mem Prod.fst h1
        rw [hk] at this
        have := contains_eq_true_iff.mpr this
        rw [this] at hnd
        simp at hnd
      · rw [if_neg hk]
        exact lookupKey_of_mem_nodup rest k v hnd.2 h1

theorem pyDictSub_forall : ∀ (a b : List (String × PyVal)),
    pyDictSub a b = true ↔ ∀ p ∈ a, ∃ w, lookupKey p.1 b = some w ∧ pyEq p.2 w = true
  | [], b => by simp [pyDictSub]
  | (k, v) :: rest, b => by
    simp only [pyDictSub, Bool.and_eq_true]
    constructor
    · rintro ⟨hm, hrest⟩ p hp
      rcases List.mem_cons.mp hp with h1 | h1
      · subst h1
        cases hw : lookupKey k b with
        | none => rw [hw] at hm; simp at hm
        | some w =>
          rw [hw] at hm
          exact ⟨w, rfl, hm⟩
      · exact (pyDictSub_forall rest b).mp hrest p h1
    · intro hall
      constructor
      · obtain ⟨w, hw, he⟩ := hall (k, v) (List.mem_cons_self _ _)
        rw [hw]
        exact he
      · exact (pyDictSub_forall rest b).mpr fun p hp => hall p (List.mem_cons_of_mem _ hp)

theorem nodup_subset_length_mem {l1 l2 : List String}
    (h1 : l1.Nodup) (h2 : l2.Nodup) (hsub : ∀ k ∈ l1, k ∈ l2)
    (hlen : l1.length = l2.length) : ∀ k ∈ l2, k ∈ l1 := by
  intro k hk
  have hsub' : l1.toFinset ⊆ l2.toFinset := fun x hx =>
    List.mem_toFinset.mpr (hsub x (List.mem_toFinset.mp hx))
  have hcard : l2.toFinset.card ≤ l1.toFinset.card := by
    rw [List.toFinset_card_of_nodup h1, List.toFinset_card_of_nodup h2]
    omega
  have heq : l1.toFinset = l2.toFinset := Finset.eq_of_subset_of_card_le hsub' hcard
  exact List.mem_toFinset.mp (heq ▸ List.mem_toFinset.mpr hk)

mutual

theorem pyEq_symm_wf : ∀ a b, pyWF a = true → pyWF b = true → pyEq a b = true → pyEq b a = true
  | .none, b, _, _, h1 => by
    cases b with
    | none => exact h1
    | bool z => simp [pyEq] at h1
    | int n => simp [pyEq] at h1
    | str t => simp [pyEq] at h1
    | list bs => simp [pyEq] at h1
    | dict db => simp [pyEq] at h1
  | .bool x, b, _, _, h1 => by
    cases b with
    | bool z => simp [pyEq] at h1 ⊢; exact h1.symm
    | int n => simp [pyEq] at h1 ⊢; omega
    | none => simp [pyEq] at h1
    | str t => simp [pyEq] at h1
    | list bs => simp [pyEq] at h1
    | dict db => simp [pyEq] at h1
  | .int m, b, _, _, h1 => by
    cases b with
    | bool z => simp [pyEq] at h1 ⊢; omega
    | int n => simp [pyEq] at h1 ⊢; omega
    | none => simp [pyEq] at h1
    | str t => simp [pyEq] at h1
    | list bs => simp [pyEq] at h1
    | dict db => simp [pyEq] at h1
  | .str s, b, _, _, h1 => by
    cases b with
    | str t => simp [pyEq] at h1 ⊢; exact h1.symm
    | none => simp [pyEq] at h1
    | bool z => simp [pyEq] at h1
    | int n => simp [pyEq] at h1
    | list bs => simp [pyEq] at h1
    | dict db => simp [pyEq] at h1
  | .list as, b, hwa, hwb, h1 => by
    cases b with
    | list bs => exact pyListEq_symm_wf as bs hwa hwb h1
    | none => simp [pyEq] at h1
    | bool z => simp [pyEq] at h1
    | int n => simp [pyEq] at h1
    | str t => simp [pyEq] at h1
    | dict db => simp [pyEq] at h1
  | .dict da, b, hwa, hwb, h1 => by
    cases b with
    | dict db =>
      simp only [pyWF, Bool.and_eq_true] at hwa hwb
      simp only [pyEq, Bool.and_eq_true, decide_eq_true_eq] at h1 ⊢
      obtain ⟨hlen, hsub⟩ := h1
      refine ⟨hlen.symm, ?_⟩
      rw [pyDictSub_forall]
      intro p hpdb
      obtain ⟨k, w⟩ := p
      have hkdb : k ∈ db.map Prod.fst := List.mem_map_of_mem Prod.fst hpdb
      have hkeysub : ∀ k' ∈ da.map Prod.fst, k' ∈ db.map Prod.fst := by
        intro k' hk'
        obtain ⟨v', hv'⟩ := lookupKey_isSome_of_mem da k' hk'
        obtain ⟨w', hw', _⟩ := (pyDictSub_forall da db).mp hsub (k', v') (lookupKey_mem da k' v' hv')
        exact List.mem_map_of_mem Prod.fst (lookupKey_mem db k' w' hw')
      have hkda : k ∈ da.map Prod.fst :=
        nodup_subset_length_mem (keysNodup_nodup hwa.1) (keysNodup_nodup hwb.1)
          hkeysub (by simpa using hlen) k hkdb
      obtain ⟨v, hv⟩ := lookupKey_isSome_of_mem da k hkda
      have hvda : (k, v) ∈ da := lookupKey_mem da k v hv
      obtain ⟨w', hw', hvw'⟩ := (pyDictSub_forall da db).mp hsub (k, v) hvda
      have hwdb : lookupKey k db = some w := lookupKey_of_mem_nodup db k w hwb.1 hpdb
      have hww : w' = w := Option.some_inj.mp (hw'.symm.trans hwdb)
      subst hww
      refine ⟨v, hv, ?_⟩
      exact pyEq_symm_wf v w' (pyWFKvs_mem hwa.2 (k, v) hvda) (pyWFKvs_mem hwb.2 (k, w') hpdb) hvw'
    | none => simp [pyEq] at h1
    | bool z => simp [pyEq] at h1
    | int n => simp [pyEq] at h1
    | str t => simp [pyEq] at h1
    | list bs => simp [pyEq] at h1
termination_by a _ _ _ _ => sizeOf a
decreasing_by
  all_goals simp_wf
  all_goals try simp_arith
  all_goals
    (have hs := List.sizeOf_lt_of_mem hvda
     simp only [Prod.mk.sizeOf_spec] at hs
     omega)

theorem pyListEq_symm_wf : ∀ as bs, pyWFList as = true → pyWFList bs = true →
    pyListEq as bs = true → pyListEq bs as = true
  | [], [], _, _, _ => rfl
  | [], _ :: _, _, _, h1 => by simp [pyListEq] at h1
  | _ :: _, [], _, _, h1 => by simp [pyListEq] at h1
  | x :: xs, y :: ys, hwa, hwb, h1 => by
    simp only [pyWFList, Bool.and_eq_true] at hwa hwb
    simp only [pyListEq, Bool.and_eq_true] at h1 ⊢
    exact ⟨pyEq_symm_wf x y hwa.1 hwb.1 h1.1,
      pyListEq_symm_wf xs ys hwa.2 hwb.2 h1.2⟩
termination_by as _ _ _ _ => sizeOf as

end

mutual

theorem pyLt_congr_right : ∀ (x b c : PyVal), pyEq b c = true → pyEq c b = true →
    pyLt x b = pyLt x c
  | x, .none, c, h1, _ => by
    cases c with
    | none => rfl
    | bool u => simp [pyEq] at h1
    | int p => simp [pyEq] at h1
    | str t => simp [pyEq] at h1
    | list cs => simp [pyEq] at h1
    | dict dc => simp [pyEq] at h1
  | x, .bool z, c, h1, _ => by
    cases c with
    | bool u =>
      have : z = u := by simpa [pyEq] using h1
      subst this
      rfl
    | int p =>
      have h1' : (if z then (1 : Int) else 0) = p := by simpa [pyEq] using h1
      cases x <;> simp [pyLt] <;> rw [h1']
    | none => simp [pyEq] at h1
    | str t => simp [pyEq] at h1
    | list cs => simp [pyEq] at h1
    | dict dc => simp [pyEq] at h1
  | x, .int n, c, h1, _ => by
    cases c with
    | int p =>
      have : n = p := by simpa [pyEq] using h1
      subst this
      rfl
    | bool u =>
      have h1' : n = (if u then (1 : Int) else 0) := by simpa [pyEq] using h1
      cases x <;> simp [pyLt] <;> rw [h1']
    | none => simp [pyEq] at h1
    | str t => simp [pyEq] at h1
    | list cs => simp [pyEq] at h1
    | dict dc => simp [pyEq] at h1
  | x, .str t, c, h1, _ => by
    cases c with
    | str t2 =>
      have : t = t2 := by simpa [pyEq] using h1
      subst this
      rfl
    | none => simp [pyEq] at h1
    | bool u => simp [pyEq] at h1
    | int p => simp [pyEq] at h1
    | list cs => simp [pyEq] at h1
    | dict dc => simp [pyEq] at h1
  | x, .list bs, c, h1, h2 => by
    cases c with
    | list cs =>
      cases x with
      | list xs => exact pyListLt_congr_right xs bs cs h1 h2
      | none => rfl
      | bool z => rfl
      | int n => rfl
      | str t => rfl
      | dict dx => rfl
    | none => simp [pyEq] at h1
    | bool u => simp [pyEq] at h1
    | int p => simp [pyEq] at h1
    | str t => simp [pyEq] at h1
    | dict dc => simp [pyEq] at h1
  | x, .dict db, c, h1, _ => by
    cases c with
    | dict dc => cases x <;> rfl
    | none => simp [pyEq] at h1
    | bool u => simp [pyEq] at h1
    | int p => simp [pyEq] at h1
    | str t => simp [pyEq] at h1
    | list cs => simp [pyEq] at h1
termination_by _ b _ _ _ => sizeOf b

theorem pyListLt_congr_right : ∀ (xs bs cs : List PyVal), pyListEq bs cs = true →
    pyListEq cs bs = true → pyListLt xs bs = pyListLt xs cs
  | xs, [], cs, h1, _ => by
    cases cs with
    | nil => rfl
    | cons c cs' => simp [pyListEq] at h1
  | xs, b :: bs', cs, h1, h2 => by
    cases cs with
    | nil => simp [pyListEq] at h1
    | cons c cs' =>
      simp only [pyListEq, Bool.and_eq_true] at h1 h2
      obtain ⟨hbc, hbs⟩ := h1
      obtain ⟨hcb, hcs⟩ := h2
      cases xs with
      | nil => rfl
      | cons x xs' =>
        have hhead : pyEq x b = pyEq x c := by
          cases hxb : pyEq x b with
          | true => exact (pyEq_trans x b c hxb hbc).symm
          | false =>
            cases hxc : pyEq x c with
            | true => exact absurd (pyEq_trans x c b hxc hcb) (by rw [hxb]; exact Bool.false_ne_true)
            | false => rfl
        simp only [pyListLt]
        rw [hhead]
        by_cases hc : pyEq x c = true
        · rw [if_pos hc, if_pos hc]
          exact pyListLt_congr_right xs' bs' cs' hbs hcs
        · rw [if_neg hc, if_neg hc]
          exact pyLt_congr_right x b c hbc hcb
termination_by _ bs _ _ _ => sizeOf bs

end

mutual

theorem pyLt_congr_left : ∀ (a b y : PyVal), pyEq a b = true → pyEq b a = true →
    pyLt a y = pyLt b y
  | .none, b, y, h1, _ => by
    cases b with
    | none => rfl
    | bool u => simp [pyEq] at h1
    | int p => simp [pyEq] at h1
    | str t => simp [pyEq] at h1
    | list bs => simp [pyEq] at h1
    | dict db => simp [pyEq] at h1
  | .bool z, b, y, h1, _ => by
    cases b with
    | bool u =>
      have : z = u := by simpa [pyEq] using h1
      subst this
      rfl
    | int p =>
      have h1' : (if z then (1 : Int) else 0) = p := by simpa [pyEq] using h1
      cases y <;> simp [pyLt] <;> rw [h1']
    | none => simp [pyEq] at h1
    | str t => simp [pyEq] at h1
    | list bs => simp [pyEq] at h1
    | dict db => simp [pyEq] at h1
  | .int m, b, y, h1, _ => by
    cases b with
    | int p =>
      have : m = p := by simpa [pyEq] using h1
      subst this
      rfl
    | bool u =>
      have h1' : m = (if u then (1 : Int) else 0) := by simpa [pyEq] using h1
      cases y <;> simp [pyLt] <;> rw [h1']
    | none => simp [pyEq] at h1
    | str t => simp [pyEq] at h1
    | list bs => simp [pyEq] at h1
    | dict db => simp [pyEq] at h1
  | .str s, b, y, h1, _ => by
    cases b with
    | str t =>
      have : s = t := by simpa [pyEq] using h1
      subst this
      rfl
    | none => simp [pyEq] at h1
    | bool u => simp [pyEq] at h1
    | int p => simp [pyEq] at h1
    | list bs => simp [pyEq] at h1
    | dict db => simp [pyEq] at h1
  | .list as, b, y, h1, h2 => by
    cases b with
    | list bs =>
      cases y with
      | list ys => exact pyListLt_congr_left as bs ys h1 h2
      | none => rfl
      | bool u => rfl
      | int p => rfl
      | str t => rfl
      | dict dy => rfl
    | none => simp [pyEq] at h1
    | bool u => simp [pyEq] at h1
    | int p => simp [pyEq] at h1
    | str t => simp [pyEq] at h1
    | dict db => simp [pyEq] at h1
  | .dict da, b, y, h1, _ => by
    cases b with
    | dict db => cases y <;> rfl
    | none => simp [pyEq] at h1
    | bool u => simp [pyEq] at h1
    | int p => simp [pyEq] at h1
    | str t => simp [pyEq] at h1
    | list bs => simp [pyEq] at h1
termination_by a _ _ _ _ => sizeOf a

theorem pyListLt_congr_left : ∀ (as bs ys : List PyVal), pyListEq as bs = true →
    pyListEq bs as = true → pyListLt as ys = pyListLt bs ys
  | [], bs, ys, h1, _ => by
    cases bs with
    | nil => rfl
    | cons b bs' => simp [pyListEq] at h1
  | a :: as', bs, ys, h1, h2 => by
    cases bs with
    | nil => simp [pyListEq] at h1
    | cons b bs' =>
      simp only [pyListEq, Bool.and_eq_true] at h1 h2
      obtain ⟨hab, has⟩ := h1
      obtain ⟨hba, hbs⟩ := h2
      cases ys with
      | nil => rfl
      | cons y ys' =>
        have hhead : pyEq a y = pyEq b y := by
          cases hay : pyEq a y with
          | true => exact (pyEq_trans b a y hba hay).symm
          | false =>
            cases hby : pyEq b y with
            | true => exact absurd (pyEq_trans a b y hab hby) (by rw [hay]; exact Bool.false_ne_true)
            | false => rfl
        simp only [pyListLt]
        rw [hhead]
        by_cases hc : pyEq b y = true
        · rw [if_pos hc, if_pos hc]
          exact pyListLt_congr_left as' bs' ys' has hbs
        · rw [if_neg hc, if_neg hc]
          exact pyLt_congr_left a b y hab hba
termination_by as _ _ _ _ => sizeOf as

end

theorem charListLt_trans : ∀ a b c, charListLt a b = true → charListLt b c = true →
    charListLt a c = true
  | [], b, c, h1, h2 => by
    cases b with
    | nil => simp [charListLt] at h1
    | cons y ys =>
      cases c with
      | nil => simp [charListLt] at h2
      | cons z zs => rfl
  | _ :: _, [], _, h1, _ => by simp [charListLt] at h1
  | _ :: _, _ :: _, [], _, h2 => by simp [charListLt] at h2
  | x :: xs, y :: ys, z :: zs, h1, h2 => by
    simp only [charListLt] at h1 h2 ⊢
    by_cases hxy : x.toNat < y.toNat
    · by_cases hyz : y.toNat < z.toNat
      · rw [if_pos (by omega)]
      · rw [if_neg hyz] at h2
        by_cases hzy : z.toNat < y.toNat
        · rw [if_pos hzy] at h2
          exact absurd h2 (by decide)
        · rw [if_pos (by omega)]
    · rw [if_neg hxy] at h1
      by_cases hyx : y.toNat < x.toNat
      · rw [if_pos hyx] at h1
        exact absurd h1 (by decide)
      · rw [if_neg hyx] at h1
        by_cases hyz : y.toNat < z.toNat
        · rw [if_pos (by omega)]
        · rw [if_neg hyz] at h2
          by_cases hzy : z.toNat < y.toNat
          · rw [if_pos hzy] at h2
            exact absurd h2 (by decide)
          · rw [if_neg hzy] at h2
            rw [if_neg (by omega), if_neg (by omega)]
            exact charListLt_trans xs ys zs h1 h2

theorem strLt_trans (a b c : String) (h1 : strLt a b = true) (h2 : strLt b c = true) :
    strLt a c = true :=
  charListLt_trans a.data b.data c.data h1 h2

mutual

theorem pyLt_trans_wf : ∀ a b c, pyWF a = true → pyWF b = true → pyWF c = true →
    pyLt a b = some true → pyLt b c = some true → pyLt a c = some true
  | .none, b, c, _, _, _, h1, _ => by cases b <;> simp [pyLt] at h1
  | .dict da, b, c, _, _, _, h1, _ => by cases b <;> simp [pyLt] at h1
  | .str s, b, c, _, _, _, h1, h2 => by
    cases b with
    | str t =>
      cases c with
      | str u =>
        simp only [pyLt, Option.some_inj] at h1 h2 ⊢
        exact strLt_trans s t u h1 h2
      | none => simp [pyLt] at h2
      | bool z => simp [pyLt] at h2
      | int n => simp [pyLt] at h2
      | list cs => simp [pyLt] at h2
      | dict dc => simp [pyLt] at h2
    | none => simp [pyLt] at h1
    | bool z => simp [pyLt] at h1
    | int n => simp [pyLt] at h1
    | list bs => simp [pyLt] at h1
    | dict db => simp [pyLt] at h1
  | .bool x, b, c, _, _, _, h1, h2 => by
    cases b with
    | bool z =>
      cases c with
      | bool u => cases x <;> cases z <;> cases u <;> simp [pyLt] at h1 h2 ⊢
      | int p => cases x <;> cases z <;> simp [pyLt] at h1 h2 ⊢ <;> omega
      | none => simp [pyLt] at h2
      | str t => simp [pyLt] at h2
      | list cs => simp [pyLt] at h2
      | dict dc => simp [pyLt] at h2
    | int n =>
      cases c with
      | bool u => cases x <;> cases u <;> simp [pyLt] at h1 h2 ⊢ <;> omega
      | int p => cases x <;> simp [pyLt] at h1 h2 ⊢ <;> omega
      | none => simp [pyLt] at h2
      | str t => simp [pyLt] at h2
      | list cs => simp [pyLt] at h2
      | dict dc => simp [pyLt] at h2
    | none => simp [pyLt] at h1
    | str t => simp [pyLt] at h1
    | list bs => simp [pyLt] at h1
    | dict db => simp [pyLt] at h1
  | .int m, b, c, _, _, _, h1, h2 => by
    cases b with
    | bool z =>
      cases c with
      | bool u => cases z <;> cases u <;> simp [pyLt] at h1 h2 ⊢ <;> omega
      | int p => cases z <;> simp [pyLt] at h1 h2 ⊢ <;> omega
      | none => simp [pyLt] at h2
      | str t => simp [pyLt] at h2
      | list cs => simp [pyLt] at h2
      | dict dc => simp [pyLt] at h2
    | int n =>
      cases c with
      | bool u => cases u <;> simp [pyLt] at h1 h2 ⊢ <;> omega
      | int p => simp [pyLt] at h1 h2 ⊢; omega
      | none => simp [pyLt] at h2
      | str t => simp [pyLt] at h2
      | list cs => simp [pyLt] at h2
      | dict dc => simp [pyLt] at h2
    | none => simp [pyLt] at h1
    | str t => simp [pyLt] at h1
    | list bs => simp [pyLt] at h1
    | dict db => simp [pyLt] at h1
  | .list as, b, c, hwa, hwb, hwc, h1, h2 => by
    cases b with
    | list bs =>
      cases c with
      | list cs => exact pyListLt_trans_wf as bs cs hwa hwb hwc h1 h2
      | none => simp [pyLt] at h2
      | bool z => simp [pyLt] at h2
      | int n => simp [pyLt] at h2
      | str t => simp [pyLt] at h2
      | dict dc => simp [pyLt] at h2
    | none => simp [pyLt] at h1
    | bool z => simp [pyLt] at h1
    | int n => simp [pyLt] at h1
    | str t => simp [pyLt] at h1
    | dict db => simp [pyLt] at h1
termination_by a _ _ _ _ _ _ _ => sizeOf a

theorem pyListLt_trans_wf : ∀ as bs cs, pyWFList as = true → pyWFList bs = true →
    pyWFList cs = true → pyListLt as bs = some true → pyListLt bs cs = some true →
    pyListLt as cs = some true
  | [], bs, cs, _, _, _, h1, h2 => by
    cases bs with
    | nil => simp [pyListLt] at h1
    | cons b bs' =>
      cases cs with
      | nil => simp [pyListLt] at h2
      | cons c cs' => rfl
  | _ :: _, [], _, _, _, _, h1, _ => by simp [pyListLt] at h1
  | _ :: _, _ :: _, [], _, _, _, _, h2 => by simp [pyListLt] at h2
  | a :: as', b :: bs', c :: cs', hwa, hwb, hwc, h1, h2 => by
    simp only [pyWFList, Bool.and_eq_true] at hwa hwb hwc
    simp only [pyListLt] at h1 h2 ⊢
    by_cases hab : pyEq a b = true
    · rw [if_pos hab] at h1
      by_cases hbc : pyEq b c = true
      · rw [if_pos hbc] at h2
        rw [if_pos (pyEq_trans a b c hab hbc)]
        exact pyListLt_trans_wf as' bs' cs' hwa.2 hwb.2 hwc.2 h1 h2
      · rw [if_neg hbc] at h2
        have hba : pyEq b a = true := pyEq_symm_wf a b hwa.1 hwb.1 hab
        have hac : ¬ pyEq a c = true := by
          intro hac
          exact hbc (pyEq_trans b a c hba hac)
        rw [if_neg hac, pyLt_congr_left a b c hab hba]
        exact h2
    · rw [if_neg hab] at h1
      by_cases hbc : pyEq b c = true
      · rw [if_neg ?_]
        · have hcb : pyEq c b = true := pyEq_symm_wf b c hwb.1 hwc.1 hbc
          rw [← pyLt_congr_right a b c hbc hcb]
          exact h1
        · intro hac
          have hca : pyEq c a = true := pyEq_symm_wf a c hwa.1 hwc.1 hac
          exact hab (pyEq_trans a c b hac (pyEq_symm_wf b c hwb.1 hwc.1 hbc))
      · rw [if_neg hbc] at h2
        have hac : ¬ pyEq a c = true := by
          intro hac
          have hca : pyEq c a = true := pyEq_symm_wf a c hwa.1 hwc.1 hac
          have := pyLt_congr_left a c b hac hca
          rw [this] at h1
          have := pyLt_asymm b c true h2 h1
          exact absurd this (by decide)
        rw [if_neg hac]
        exact pyLt_trans_wf a b c hwa.1 hwb.1 hwc.1 h1 h2
termination_by as _ _ _ _ _ _ _ => sizeOf as

end

theorem insertSorted_perm : ∀ (x : PyVal) (s t : List PyVal),
    insertSorted x s = some t → t.Perm (x :: s)
  | x, [], t, h => by
    rw [← Option.some_inj.mp h]
  | x, y :: ys, t, h => by
    simp only [insertSorted] at h
    cases hxy : pyLt x y with
    | none => rw [hxy] at h; exact absurd h (by simp)
    | some b =>
      rw [hxy] at h
      cases b with
      | true =>
        rw [← Option.some_inj.mp h]
      | false =>
        cases hrec : insertSorted x ys with
        | none => rw [hrec] at h; exact absurd h (by simp)
        | some zs =>
          rw [hrec] at h
          rw [← Option.some_inj.mp h]
          exact (List.Perm.cons y (insertSorted_perm x ys zs hrec)).trans
            (List.Perm.swap x y ys)

theorem insertSorted_isSome : ∀ (x : PyVal) (s : List PyVal),
    (∀ z ∈ s, (pyLt x z).isSome) → ∃ t, insertSorted x s = some t
  | x, [], _ => ⟨[x], rfl⟩
  | x, y :: ys, h => by
    simp only [insertSorted]
    cases hxy : pyLt x y with
    | none =>
      have := h y (List.mem_cons_self _ _)
      rw [hxy] at this
      exact absurd this (by simp)
    | some b =>
      cases b with
      | true => exact ⟨x :: y :: ys, rfl⟩
      | false =>
        obtain ⟨zs, hzs⟩ := insertSorted_isSome x ys
          (fun z hz => h z (List.mem_cons_of_mem _ hz))
        rw [hzs]
        exact ⟨y :: zs, rfl⟩

theorem pyListEq_refl_all : ∀ {s : List PyVal}, (∀ z ∈ s, pyEq z z = true) →
    pyListEq s s = true := by
  intro s h
  induction s with
  | nil => rfl
  | cons x xs ih =>
    simp only [pyListEq, Bool.and_eq_true]
    exact ⟨h x (List.mem_cons_self _ _), ih fun z hz => h z (List.mem_cons_of_mem _ hz)⟩

theorem MutComp_mono {l1 l2 : List PyVal} (hsub : l1 ⊆ l2) (h : MutComp l2) : MutComp l1 :=
  fun a ha b hb => h a (hsub ha) b (hsub hb)

theorem MutComp_refl {l : List PyVal} (h : MutComp l) : ∀ z ∈ l, pyEq z z = true :=
  fun z hz => pyEq_refl_of_lt_self z (h z hz z hz)

theorem insertSorted_congr : ∀ (s1 s2 : List PyVal) (x : PyVal) (t1 : List PyVal),
    pyListEq s1 s2 = true → pyListEq s2 s1 = true → pyEq x x = true →
    insertSorted x s1 = some t1 →
    ∃ t2, insertSorted x s2 = some t2 ∧ pyListEq t1 t2 = true ∧ pyListEq t2 t1 = true
  | [], [], x, t1, _, _, hx, h => by
    refine ⟨[x], rfl, ?_⟩
    rw [← Option.some_inj.mp h]
    constructor <;> simp [pyListEq, hx]
  | [], _ :: _, _, _, h1, _, _, _ => by simp [pyListEq] at h1
  | _ :: _, [], _, _, h1, _, _, _ => by simp [pyListEq] at h1
  | y1 :: s1', y2 :: s2', x, t1, h1, h2, hx, h => by
    simp only [pyListEq, Bool.and_eq_true] at h1 h2
    obtain ⟨hy, h1'⟩ := h1
    obtain ⟨hy2, h2'⟩ := h2
    have hlt : pyLt x y1 = pyLt x y2 := pyLt_congr_right x y1 y2 hy hy2
    simp only [insertSorted] at h ⊢
    rw [← hlt]
    cases hc : pyLt x y1 with
    | none => rw [hc] at h; exact absurd h (by simp)
    | some b =>
      rw [hc] at h
      cases b with
      | true =>
        refine ⟨x :: y2 :: s2', rfl, ?_⟩
        rw [← Option.some_inj.mp h]
        constructor <;> simp only [pyListEq, Bool.and_eq_true] <;>
          exact ⟨hx, by assumption, by assumption⟩
      | false =>
        cases hrec : insertSorted x s1' with
        | none => rw [hrec] at h; exact absurd h (by simp)
        | some zs =>
          rw [hrec] at h
          obtain ⟨zs2, hzs2, he1, he2⟩ := insertSorted_congr s1' s2' x zs h1' h2' hx hrec
          rw [hzs2]
          refine ⟨y2 :: zs2, rfl, ?_⟩
          rw [← Option.some_inj.mp h]
          constructor <;> simp only [pyListEq, Bool.and_eq_true] <;>
            exact ⟨by assumption, by assumption⟩

theorem pySortedFrom_congr : ∀ (l acc1 acc2 out1 : List PyVal),
    (∀ z ∈ l, pyEq z z = true) →
    pyListEq acc1 acc2 = true → pyListEq acc2 acc1 = true →
    pySortedFrom acc1 l = some out1 →
    ∃ out2, pySortedFrom acc2 l = some out2 ∧ pyListEq out1 out2 = true ∧
      pyListEq out2 out1 = true
  | [], acc1, acc2, out1, _, he1, he2, h => by
    refine ⟨acc2, rfl, ?_⟩
    rw [← Option.some_inj.mp h]
    exact ⟨he1, he2⟩
  | x :: xs, acc1, acc2, out1, hrefl, he1, he2, h => by
    simp only [pySortedFrom] at h ⊢
    cases hins : insertSorted x acc1 with
    | none => rw [hins] at h; exact absurd h (by simp)
    | some a1 =>
      rw [hins] at h
      obtain ⟨a2, ha2, hae1, hae2⟩ := insertSorted_congr acc1 acc2 x a1 he1 he2
        (hrefl x (List.mem_cons_self _ _)) hins
      rw [ha2]
      exact pySortedFrom_congr xs a1 a2 out1
        (fun z hz => hrefl z (List.mem_cons_of_mem _ hz)) hae1 hae2 h

theorem pySortedFrom_isSome : ∀ (l acc : List PyVal), MutComp (acc ++ l) →
    ∃ out, pySortedFrom acc l = some out
  | [], acc, _ => ⟨acc, rfl⟩
  | x :: xs, acc, H => by
    simp only [pySortedFrom]
    have hx : x ∈ acc ++ x :: xs := List.mem_append_right _ (List.mem_cons_self _ _)
    obtain ⟨a1, ha1⟩ := insertSorted_isSome x acc
      (fun z hz => H x hx z (List.mem_append_left _ hz))
    rw [ha1]
    have hperm : a1.Perm (x :: acc) := insertSorted_perm x acc a1 ha1
    refine pySortedFrom_isSome xs a1 (MutComp_mono ?_ H)
    intro v hv
    rcases List.mem_append.mp hv with h1 | h1
    · rcases List.mem_cons.mp (hperm.subset h1) with h2 | h2
      · exact h2 ▸ hx
      · exact List.mem_append_left _ h2
    · exact List.mem_append_right _ (List.mem_cons_of_mem _ h1)

theorem pySortedFrom_perm : ∀ (l acc out : List PyVal),
    pySortedFrom acc l = some out → out.Perm (acc ++ l)
  | [], acc, out, h => by
    rw [← Option.some_inj.mp h]
    simp
  | x :: xs, acc, out, h => by
    simp only [pySortedFrom] at h
    cases hins : insertSorted x acc with
    | none => rw [hins] at h; exact absurd h (by simp)
    | some a1 =>
      rw [hins] at h
      have h1 : out.Perm (a1 ++ xs) := pySortedFrom_perm xs a1 out h
      have h2 : a1.Perm (x :: acc) := insertSorted_perm x acc a1 hins
      refine h1.trans ((h2.append_right xs).trans ?_)
      exact (List.perm_middle).symm

theorem pyListEq_refl_of_subset {s t : List PyVal} (hsub : t ⊆ s)
    (h : ∀ z ∈ s, pyEq z z = true) : pyListEq t t = true :=
  pyListEq_refl_all fun z hz => h z (hsub hz)

theorem insert2_comm : ∀ (s : List PyVal) (x y : PyVal),
    MutComp (x :: y :: s) → (∀ v ∈ x :: y :: s, pyWF v = true) →
    ∀ sx, insertSorted x s = some sx →
    ∀ t1, insertSorted y sx = some t1 →
    ∃ sy t2, insertSorted y s = some sy ∧ insertSorted x sy = some t2 ∧
      pyListEq t1 t2 = true ∧ pyListEq t2 t1 = true
  | [], x, y, H, HW, sx, hsx, t1, ht1 => by
    have hmx : x ∈ [x, y] := by simp
    have hmy : y ∈ [x, y] := by simp
    have hre := MutComp_refl H
    have hsx' : sx = [x] := (Option.some_inj.mp hsx).symm
    subst hsx'
    simp only [insertSorted] at ht1
    cases hyx : pyLt y x with
    | none =>
      have hd := H y hmy x hmx
      rw [hyx] at hd
      simp at hd
    | some byx =>
      rw [hyx] at ht1
      cases byx with
      | true =>
        have ht1' : t1 = [y, x] := (Option.some_inj.mp ht1).symm
        subst ht1'
        cases hxy : pyLt x y with
        | none =>
          have hd := H x hmx y hmy
          rw [hxy] at hd
          simp at hd
        | some bxy =>
          cases bxy with
          | true => exact absurd (pyLt_asymm y x true hyx hxy) (by decide)
          | false =>
            refine ⟨[y], [y, x], rfl, by simp only [insertSorted, hxy], ?_, ?_⟩ <;>
              simp [pyListEq, hre x hmx, hre y hmy]
      | false =>
        have ht1' : t1 = [x, y] := (Option.some_inj.mp ht1).symm
        subst ht1'
        cases hxy : pyLt x y with
        | none =>
          have hd := H x hmx y hmy
          rw [hxy] at hd
          simp at hd
        | some bxy =>
          cases bxy with
          | true =>
            refine ⟨[y], [x, y], rfl, by simp only [insertSorted, hxy], ?_, ?_⟩ <;>
              simp [pyListEq, hre x hmx, hre y hmy]
          | false =>
            have hexy : pyEq x y = true := pyLt_ff_eq x y hxy hyx
            have heyx : pyEq y x = true := pyLt_ff_eq y x hyx hxy
            refine ⟨[y], [y, x], rfl, by simp only [insertSorted, hxy], ?_, ?_⟩ <;>
              simp [pyListEq, hexy, heyx]
  | z :: s', x, y, H, HW, sx, hsx, t1, ht1 => by
    have hmx : x ∈ x :: y :: z :: s' := by simp
    have hmy : y ∈ x :: y :: z :: s' := by simp
    have hmz : z ∈ x :: y :: z :: s' := by simp
    have hre := MutComp_refl H
    have hwx : pyWF x = true := HW x hmx
    have hwy : pyWF y = true := HW y hmy
    have hwz : pyWF z = true := HW z hmz
    have hsub' : x :: y :: s' ⊆ x :: y :: z :: s' := by
      intro v hv
      simp only [List.mem_cons] at hv ⊢
      tauto
    have hsubR : z :: s' ⊆ x :: y :: z :: s' := by
      intro v hv
      simp only [List.mem_cons] at hv ⊢
      tauto
    have hRR : pyListEq (z :: s') (z :: s') = true := pyListEq_refl_of_subset hsubR hre
    have H' : MutComp (x :: y :: s') := MutComp_mono hsub' H
    have HW' : ∀ v ∈ x :: y :: s', pyWF v = true := fun v hv => HW v (hsub' hv)
    have hys'def : ∀ v ∈ s', (pyLt y v).isSome :=
      fun v hv => H y hmy v (by simp only [List.mem_cons]; tauto)
    have hxs'def : ∀ v ∈ s', (pyLt x v).isSome :=
      fun v hv => H x hmx v (by simp only [List.mem_cons]; tauto)
    simp only [insertSorted] at hsx
    cases hxz : pyLt x z with
    | none =>
      have hd := H x hmx z hmz
      rw [hxz] at hd
      simp at hd
    | some bxz =>
      rw [hxz] at hsx
      cases bxz with
      | true =>
        have hsx' : sx = x :: z :: s' := (Option.some_inj.mp hsx).symm
        subst hsx'
        simp only [insertSorted] at ht1
        cases hyx : pyLt y x with
        | none =>
          have hd := H y hmy x hmx
          rw [hyx] at hd
          simp at hd
        | some byx =>
          rw [hyx] at ht1
          cases byx with
          | true =>
            have ht1' : t1 = y :: x :: z :: s' := (Option.some_inj.mp ht1).symm
            subst ht1'
            have hyz : pyLt y z = some true := pyLt_trans_wf y x z hwy hwx hwz hyx hxz
            cases hxy : pyLt x y with
            | none =>
              have hd := H x hmx y hmy
              rw [hxy] at hd
              simp at hd
            | some bxy =>
              cases bxy with
              | true => exact absurd (pyLt_asymm y x true hyx hxy) (by decide)
              | false =>
                refine ⟨y :: z :: s', y :: x :: z :: s',
                  by simp only [insertSorted, hyz],
                  by simp only [insertSorted, hxy, hxz], ?_, ?_⟩ <;>
                  exact pyListEq_refl_of_subset
                    (by intro v hv; simp only [List.mem_cons] at hv ⊢; tauto) hre
          | false =>
            cases hyz : pyLt y z with
            | none =>
              have hd := H y hmy z hmz
              rw [hyz] at hd
              simp at hd
            | some byz =>
              rw [hyz] at ht1
              cases byz with
              | true =>
                have ht1' : t1 = x :: y :: z :: s' := (Option.some_inj.mp ht1).symm
                subst ht1'
                cases hxy : pyLt x y with
                | none =>
                  have hd := H x hmx y hmy
                  rw [hxy] at hd
                  simp at hd
                | some bxy =>
                  cases bxy with
                  | true =>
                    refine ⟨y :: z :: s', x :: y :: z :: s',
                      by simp only [insertSorted, hyz],
                      by simp only [insertSorted, hxy], ?_, ?_⟩ <;>
                      exact pyListEq_refl_of_subset
                        (by intro v hv; simp only [List.mem_cons] at hv ⊢; tauto) hre
                  | false =>
                    have hexy : pyEq x y = true := pyLt_ff_eq x y hxy hyx
                    have heyx : pyEq y x = true := pyLt_ff_eq y x hyx hxy
                    refine ⟨y :: z :: s', y :: x :: z :: s',
                      by simp only [insertSorted, hyz],
                      by simp only [insertSorted, hxy, hxz], ?_, ?_⟩
                    · simp only [pyListEq, Bool.and_eq_true]
                      exact ⟨hexy, heyx, hre z hmz,
                        pyListEq_refl_of_subset
                          (fun v hv => hsubR (List.mem_cons_of_mem _ hv)) hre⟩
                    · simp only [pyListEq, Bool.and_eq_true]
                      exact ⟨heyx, hexy, hre z hmz,
                        pyListEq_refl_of_subset
                          (fun v hv => hsubR (List.mem_cons_of_mem _ hv)) hre⟩
              | false =>
                obtain ⟨w, hw⟩ := insertSorted_isSome y s' hys'def
                rw [hw] at ht1
                have ht1' : t1 = x :: z :: w := (Option.some_inj.mp ht1).symm
                subst ht1'
                have hwsub : x :: z :: w ⊆ x :: y :: z :: s' := by
                  intro v hv
                  have hwperm := (insertSorted_perm y s' w hw).subset
                  simp only [List.mem_cons] at hv ⊢
                  rcases hv with h | h | h
                  · tauto
                  · tauto
                  · rcases List.mem_cons.mp (hwperm h) with h2 | h2 <;> tauto
                refine ⟨z :: w, x :: z :: w,
                  by simp only [insertSorted, hyz, hw],
                  by simp only [insertSorted, hxz], ?_, ?_⟩ <;>
                  exact pyListEq_refl_of_subset hwsub hre
      | false =>
        cases hsxr : insertSorted x s' with
        | none => rw [hsxr] at hsx; exact absurd hsx (by simp)
        | some sx' =>
          rw [hsxr] at hsx
          have hsx'' : sx = z :: sx' := (Option.some_inj.mp hsx).symm
          subst hsx''
          have hsx'perm := (insertSorted_perm x s' sx' hsxr).subset
          simp only [insertSorted] at ht1
          cases hyz : pyLt y z with
          | none =>
            have hd := H y hmy z hmz
            rw [hyz] at hd
            simp at hd
          | some byz =>
            rw [hyz] at ht1
            cases byz with
            | true =>
              have ht1' : t1 = y :: z :: sx' := (Option.some_inj.mp ht1).symm
              subst ht1'
              cases hxy : pyLt x y with
              | none =>
                have hd := H x hmx y hmy
                rw [hxy] at hd
                simp at hd
              | some bxy =>
                cases bxy with
                | true =>
                  have htr := pyLt_trans_wf x y z hwx hwy hwz hxy hyz
                  rw [hxz] at htr
                  exact absurd (Option.some_inj.mp htr) (by decide)
                | false =>
                  have hsxsub : y :: z :: sx' ⊆ x :: y :: z :: s' := by
                    intro v hv
                    simp only [List.mem_cons] at hv ⊢
                    rcases hv with h | h | h
                    · tauto
                    · tauto
                    · rcases List.mem_cons.mp (hsx'perm h) with h2 | h2 <;> tauto
                  refine ⟨y :: z :: s', y :: z :: sx',
                    by simp only [insertSorted, hyz],
                    by simp only [insertSorted, hxy, hxz, hsxr], ?_, ?_⟩ <;>
                    exact pyListEq_refl_of_subset hsxsub hre
            | false =>
              cases ht1r : insertSorted y sx' with
              | none => rw [ht1r] at ht1; exact absurd ht1 (by simp)
              | some t1' =>
                rw [ht1r] at ht1
                have ht1'' : t1 = z :: t1' := (Option.some_inj.mp ht1).symm
                subst ht1''
                obtain ⟨sy0, t20, hsy0, ht20, he1, he2⟩ :=
                  insert2_comm s' x y H' HW' sx' hsxr t1' ht1r
                refine ⟨z :: sy0, z :: t20,
                  by simp only [insertSorted, hyz, hsy0],
                  by simp only [insertSorted, hxz, ht20], ?_, ?_⟩ <;>
                  simp only [pyListEq, Bool.and_eq_true] <;>
                  exact ⟨hre z hmz, by assumption⟩

theorem pySortedFrom_perm_equiv : ∀ (l1 l2 : List PyVal), l1.Perm l2 → ∀ acc,
    MutComp (acc ++ l1) → (∀ v ∈ acc ++ l1, pyWF v = true) →
    ∃ s1 s2, pySortedFrom acc l1 = some s1 ∧ pySortedFrom acc l2 = some s2 ∧
      pyListEq s1 s2 = true ∧ pyListEq s2 s1 = true := by
  intro l1 l2 hperm
  induction hperm with
  | nil =>
    intro acc H _
    have hre : pyListEq acc acc = true :=
      pyListEq_refl_all fun z hz =>
        pyEq_refl_of_lt_self z (H z (by simp [hz]) z (by simp [hz]))
    exact ⟨acc, acc, rfl, rfl, hre, hre⟩
  | @cons x t1 t2 p ih =>
    intro acc H HW
    have hxm : x ∈ acc ++ x :: t1 := List.mem_append_right _ (List.mem_cons_self _ _)
    obtain ⟨a1, ha1⟩ := insertSorted_isSome x acc
      (fun z hz => H x hxm z (List.mem_append_left _ hz))
    have ha1p := (insertSorted_perm x acc a1 ha1).subset
    have hsubs : a1 ++ t1 ⊆ acc ++ x :: t1 := by
      intro v hv
      rcases List.mem_append.mp hv with h | h
      · rcases List.mem_cons.mp (ha1p h) with h2 | h2
        · exact h2 ▸ hxm
        · exact List.mem_append_left _ h2
      · exact List.mem_append_right _ (List.mem_cons_of_mem _ h)
    obtain ⟨s1, s2, e1, e2, q12, q21⟩ := ih a1 (MutComp_mono hsubs H)
      (fun v hv => HW v (hsubs hv))
    exact ⟨s1, s2, by simp only [pySortedFrom, ha1]; exact e1,
      by simp only [pySortedFrom, ha1]; exact e2, q12, q21⟩
  | swap x y t =>
    intro acc H HW
    have hym : y ∈ acc ++ y :: x :: t := List.mem_append_right _ (List.mem_cons_self _ _)
    have hxm : x ∈ acc ++ y :: x :: t :=
      List.mem_append_right _ (List.mem_cons_of_mem _ (List.mem_cons_self _ _))
    obtain ⟨b1, hb1⟩ := insertSorted_isSome y acc
      (fun z hz => H y hym z (List.mem_append_left _ hz))
    have hb1p := (insertSorted_perm y acc b1 hb1).subset
    have hb1sub : b1 ⊆ acc ++ y :: x :: t := by
      intro v hv
      rcases List.mem_cons.mp (hb1p hv) with h2 | h2
      · exact h2 ▸ hym
      · exact List.mem_append_left _ h2
    obtain ⟨b2, hb2⟩ := insertSorted_isSome x b1
      (fun z hz => H x hxm z (hb1sub hz))
    have hyxaccsub : y :: x :: acc ⊆ acc ++ y :: x :: t := by
      intro v hv
      rcases List.mem_cons.mp hv with h | h
      · exact h ▸ hym
      · rcases List.mem_cons.mp h with h2 | h2
        · exact h2 ▸ hxm
        · exact List.mem_append_left _ h2
    obtain ⟨sy, t2c, hsy, ht2c, hq1, hq2⟩ :=
      insert2_comm acc y x (MutComp_mono hyxaccsub H) (fun v hv => HW v (hyxaccsub hv))
        b1 hb1 b2 hb2
    have hb2p := (insertSorted_perm x b1 b2 hb2).subset
    have hb2sub : b2 ⊆ acc ++ y :: x :: t := by
      intro v hv
      rcases List.mem_cons.mp (hb2p hv) with h2 | h2
      · exact h2 ▸ hxm
      · exact hb1sub h2
    have htsub : t ⊆ acc ++ y :: x :: t := by
      intro v hv
      exact List.mem_append_right _ (List.mem_cons_of_mem _ (List.mem_cons_of_mem _ hv))
    obtain ⟨s1, hs1⟩ := pySortedFrom_isSome t b2 (MutComp_mono (by
      intro v hv
      rcases List.mem_append.mp hv with h | h
      · exact hb2sub h
      · exact htsub h) H)
    obtain ⟨s2, hs2, hq12, hq21⟩ := pySortedFrom_congr t b2 t2c s1
      (fun z hz => pyEq_refl_of_lt_self z (H z (htsub hz) z (htsub hz))) hq1 hq2 hs1
    refine ⟨s1, s2, ?_, ?_, hq12, hq21⟩
    · simp only [pySortedFrom, hb1, hb2]
      exact hs1
    · simp only [pySortedFrom, hsy, ht2c]
      exact hs2
  | @trans la lb lc p1 p2 ih1 ih2 =>
    intro acc H HW
    obtain ⟨s1, s2, e1, e2, q12, q21⟩ := ih1 acc H HW
    have hsub : acc ++ lb ⊆ acc ++ la := by
      intro v hv
      rcases List.mem_append.mp hv with h | h
      · exact List.mem_append_left _ h
      · exact List.mem_append_right _ (p1.symm.subset h)
    obtain ⟨s2', s3, e2', e3, q23, q32⟩ := ih2 acc (MutComp_mono hsub H)
      (fun v hv => HW v (hsub hv))
    have hs : s2' = s2 := Option.some_inj.mp (e2'.symm.trans e2)
    subst hs
    exact ⟨s1, s3, e1, e3, pyListEq_trans s1 s2' s3 q12 q23,
      pyListEq_trans s3 s2' s1 q32 q21⟩

theorem pySorted_perm_equiv (l1 l2 : List PyVal) (hperm : l1.Perm l2)
    (H : MutComp l1) (HW : ∀ v ∈ l1, pyWF v = true) :
    ∃ s1 s2, pySorted l1 = some s1 ∧ pySorted l2 = some s2 ∧
      pyListEq s1 s2 = true ∧ pyListEq s2 s1 = true :=
  pySortedFrom_perm_equiv l1 l2 hperm [] (by simpa using H) (by simpa using HW)

/-- C7: list comparison is order-insensitive.  For every pair of records
and every requested (non-security-group) field whose two values are lists
that are permutations of each other, with mutually comparable well-formed
elements (every Python value is well formed; `pyWF` only excludes the
duplicate-key association lists no Python dict can produce), the field
compares equal: the sorted forms coincide up to Python `==`, so the
recorded `diff` flag is `false`. -/
theorem compare_list_order_insensitive (r1 r2 : Record) (f : String) (l1 l2 : List PyVal)
    (hv1 : (lookupKey f r1).getD .none = .list l1)
    (hv2 : (lookupKey f r2).getD .none = .list l2)
    (hf : f ≠ "VpcSecurityGroups")
    (hperm : l1.Perm l2) (H : MutComp l1) (HW : ∀ v ∈ l1, pyWF v = true) :
    (compareField r1 r2 f).map FieldDiff.diff = some false := by
  obtain ⟨s1, s2, hs1, hs2, q12, _⟩ := pySorted_perm_equiv l1 l2 hperm H HW
  simp only [compareField, hv1, hv2, if_neg hf, hs1, hs2, Option.map_some]
  rw [q12]
  rfl

theorem compare_list_order_insensitive_witness :
    (compareField [("Tags", PyVal.list [.str "b", .str "a"])]
      [("Tags", PyVal.list [.str "a", .str "b"])] "Tags").map FieldDiff.diff = some false :=
  compare_list_order_insensitive [("Tags", PyVal.list [.str "b", .str "a"])]
    [("Tags", PyVal.list [.str "a", .str "b"])] "Tags"
    [.str "b", .str "a"] [.str "a", .str "b"] rfl rfl (by decide)
    (List.Perm.swap (PyVal.str "a") (PyVal.str "b") [])
    (by unfold MutComp; decide) (by decide)

/-- C8 (amended): the security-group comparison depends only on the
multiset of truthy `VpcSecurityGroupId` values: elements lacking the
identifier (or carrying a falsy one) are dropped by the extraction, the
identifier lists are sorted ascending, and the sorted lists are compared —
so two records whose lists yield permuted identifier multisets, whatever
their other attributes, compare equal (`diff = false`). -/
theorem compare_sg_multiset (r1 r2 : Record) (l1 l2 : List PyVal) (ids1 ids2 : List PyVal)
    (hv1 : (lookupKey "VpcSecurityGroups" r1).getD .none = .list l1)
    (hv2 : (lookupKey "VpcSecurityGroups" r2).getD .none = .list l2)
    (hids1 : sgIds l1 = some ids1) (hids2 : sgIds l2 = some ids2)
    (hperm : ids1.Perm ids2) (H : MutComp ids1) (HW : ∀ v ∈ ids1, pyWF v = true) :
    (compareField r1 r2 "VpcSecurityGroups").map FieldDiff.diff = some false := by
  obtain ⟨s1, s2, hs1, hs2, q12, _⟩ := pySorted_perm_equiv ids1 ids2 hperm H HW
  simp only [compareField, hv1, hv2, if_pos rfl, hids1, hids2, hs1, hs2, Option.map_some]
  rw [q12]
  rfl

theorem compare_sg_multiset_witness :
    (compareField
      [("VpcSecurityGroups", PyVal.list
        [.dict [("VpcSecurityGroupId", .str "sg-1"), ("Status", .str "active")],
         .dict [("VpcSecurityGroupId", .str "sg-2")]])]
      [("VpcSecurityGroups", PyVal.list
        [.dict [("VpcSecurityGroupId", .str "sg-2"), ("Status", .str "attached"),
                ("Extra", .int 7)],
         .dict [("VpcSecurityGroupId", .str "sg-1")]])]
      "VpcSecurityGroups").map FieldDiff.diff = some false :=
  compare_sg_multiset
    [("VpcSecurityGroups", PyVal.list
      [.dict [("VpcSecurityGroupId", .str "sg-1"), ("Status", .str "active")],
       .dict [("VpcSecurityGroupId", .str "sg-2")]])]
    [("VpcSecurityGroups", PyVal.list
      [.dict [("VpcSecurityGroupId", .str "sg-2"), ("Status", .str "attached"),
              ("Extra", .int 7)],
       .dict [("VpcSecurityGroupId", .str "sg-1")]])]
    [.dict [("VpcSecurityGroupId", .str "sg-1"), ("Status", .str "active")],
     .dict [("VpcSecurityGroupId", .str "sg-2")]]
    [.dict [("VpcSecurityGroupId", .str "sg-2"), ("Status", .str "attached"),
            ("Extra", .int 7)],
     .dict [("VpcSecurityGroupId", .str "sg-1")]]
    [.str "sg-1", .str "sg-2"] [.str "sg-2", .str "sg-1"]
    rfl rfl rfl rfl
    (List.Perm.swap (PyVal.str "sg-2") (PyVal.str "sg-1") [])
    (by unfold MutComp; decide) (by decide)

/-- C8 counterexample to the claim as stated: the two `VpcSecurityGroups`
lists carry the same *set* of identifiers (both sides' identifier lists
have exactly the element `"sg-1"`), yet the comparison reports
`diff = true`, because the sorted identifier *lists* `["sg-1", "sg-1"]`
and `["sg-1"]` differ: the comparison depends on the multiset of
identifiers, not only on the set. -/
theorem compare_sg_same_set_differs :
    (∀ x ∈ [PyVal.str "sg-1", PyVal.str "sg-1"], x ∈ [PyVal.str "sg-1"])
    ∧ (∀ x ∈ [PyVal.str "sg-1"], x ∈ [PyVal.str "sg-1", PyVal.str "sg-1"])
    ∧ sgIds [.dict [("VpcSecurityGroupId", .str "sg-1")],
        .dict [("VpcSecurityGroupId", .str "sg-1")]] =
      some [.str "sg-1", .str "sg-1"]
    ∧ sgIds [.dict [("VpcSecurityGroupId", .str "sg-1")]] = some [.str "sg-1"]
    ∧ compare_rds_fields
        (some [("VpcSecurityGroups", PyVal.list
          [.dict [("VpcSecurityGroupId", .str "sg-1")],
           .dict [("VpcSecurityGroupId", .str "sg-1")]])])
        (some [("VpcSecurityGroups", PyVal.list
          [.dict [("VpcSecurityGroupId", .str "sg-1")]])])
        ["VpcSecurityGroups"] =
      some ⟨"DIFFERENCES_FOUND", "Differences found for one or more specified fields.",
        [("VpcSecurityGroups",
          ⟨.list [.str "sg-1", .str "sg-1"], .list [.str "sg-1"], true⟩)]⟩ := by
  refine ⟨?_, ?_, rfl, rfl, rfl⟩
  · intro x hx
    simp only [List.mem_cons, List.not_mem_nil, or_false] at hx ⊢
    tauto
  · intro x hx
    simp only [List.mem_cons, List.not_mem_nil, or_false] at hx ⊢
    tauto
